import Mathlib

/-!
# go-asterisk-statsd: the entry point `main.go`

A shallow embedding of `src/main.go`:

* the two connection-string patterns compiled by `regexp.Compile` and the way `main`
  reads their submatches (lines 43-62 and 70-81);
* the stop flag with `shouldStop` and `stop` (lines 28-29 and 148-160);
* the reconnect loop of `main` (lines 129-145) as a small-step transition system whose
  inputs are the scheduling of the signal goroutine and the outcome of
  `amiClient.Connect`.

A Go string is modelled as the list of its runes.  Go's `regexp` package is modelled by
a backtracking matcher: `regexp` returns the leftmost match and, among the matches that
start there, the one a backtracking search finds first.
-/

namespace AsteriskStatsd

/-! ## Regular expressions (the fragment of Go `regexp/syntax` used by `main`) -/

/-- A Go string, rune by rune. -/
abbrev Text := List Char

/-- Syntax tree of a regular expression, with the operator names of Go's
`regexp/syntax`.  The flag of `quest`, `star` and `plus` is `true` for the greedy
operator (`x?`, `x*`, `x+`) and `false` for the non-greedy one (`x??`, `x*?`, `x+?`).
Under the flags of `regexp.Compile` (`syntax.Perl`: one-line mode, dot does not match
a line feed) `^` is `beginText`, `$` is `endText` and `.` is `anyCharNotNL`. -/
inductive Regex where
  | literal (c : Char)
  | anyCharNotNL
  | beginText
  | endText
  | capture (i : Nat) (r : Regex)
  | quest (greedy : Bool) (r : Regex)
  | star (greedy : Bool) (r : Regex)
  | plus (greedy : Bool) (r : Regex)
  | concat (a b : Regex)

/-- A thread of the matcher: the number of runes before the current position, the text
that is still to be read and the text of every capture group closed so far (a group that
did not take part reads as the empty string, as in `FindStringSubmatch`). -/
structure MState where
  pos : Nat
  rest : Text
  caps : Nat → Text

/-- Record the text of capture group `i`. -/
def setCap (caps : Nat → Text) (i : Nat) (t : Text) : Nat → Text :=
  fun j => if j = i then t else caps j

/-- Repetition of `body`: every way of iterating it, in the order of preference of a
leftmost-first matcher.  Only iterations that consume input are followed, so `fuel`
equal to the length of the remaining text is never exhausted. -/
def starLoop (greedy : Bool) (body : MState → List MState) : Nat → MState → List MState
  | 0, st => [st]
  | fuel + 1, st =>
    let more := ((body st).filter (fun s => decide (s.rest.length < st.rest.length))).flatMap
      (starLoop greedy body fuel)
    if greedy then more ++ [st] else st :: more

/-- All the ways in which `r` matches at the thread `st`, as the threads after the
match, in the order in which a backtracking matcher tries them.  Go's `regexp` returns
the match such a matcher finds first (leftmost-first semantics). -/
def Regex.run : Regex → MState → List MState
  | .literal c, st =>
    match st.rest with
    | [] => []
    | d :: t => if d = c then [⟨st.pos + 1, t, st.caps⟩] else []
  | .anyCharNotNL, st =>
    match st.rest with
    | [] => []
    | d :: t => if d = '\n' then [] else [⟨st.pos + 1, t, st.caps⟩]
  | .beginText, st => if st.pos = 0 then [st] else []
  | .endText, st =>
    match st.rest with
    | [] => [st]
    | _ :: _ => []
  | .capture i r, st =>
    (r.run st).map (fun s => ⟨s.pos, s.rest, setCap s.caps i (st.rest.take (s.pos - st.pos))⟩)
  | .quest greedy r, st => if greedy then r.run st ++ [st] else st :: r.run st
  | .star greedy r, st => starLoop greedy (fun s => r.run s) st.rest.length st
  | .plus greedy r, st =>
    (r.run st).flatMap (fun s => starLoop greedy (fun s1 => r.run s1) s.rest.length s)
  | .concat a b, st => (a.run st).flatMap (fun s => b.run s)

/-- The unanchored search of `regexp`: the first match starting at the current position,
otherwise the search goes on one rune further. -/
def findFrom (re : Regex) : Nat → Text → Option MState
  | pos, [] => (re.run ⟨pos, [], fun _ => []⟩).head?
  | pos, c :: t =>
    match (re.run ⟨pos, c :: t, fun _ => []⟩).head? with
    | some m => some m
    | none => findFrom re (pos + 1) t

/-- The leftmost match of `re` in `s`, if there is one. -/
def Regex.find (re : Regex) (s : Text) : Option MState :=
  findFrom re 0 s

/-- Go `(*Regexp).MatchString`: does `s` contain a match of `re`.  The first element of
`re.FindAllStringSubmatch(s, -1)` is the match `re.find s`, its entry `i ≥ 1` being
`caps i`. -/
def Regex.MatchString (re : Regex) (s : Text) : Bool :=
  (re.find s).isSome

/-- Line 44: `regexp.Compile("^(.+?)(:(.*?))?(/(.*?))?$")`. -/
def regexStatsd : Regex :=
  .concat .beginText
    (.concat (.capture 1 (.plus false .anyCharNotNL))
      (.concat (.quest true (.capture 2 (.concat (.literal ':')
          (.capture 3 (.star false .anyCharNotNL)))))
        (.concat (.quest true (.capture 4 (.concat (.literal '/')
            (.capture 5 (.star false .anyCharNotNL)))))
          .endText)))

/-- Line 70: `regexp.Compile("^(.*?):(.*?)@(.*?)$")`. -/
def regexAsterisk : Regex :=
  .concat .beginText
    (.concat (.capture 1 (.star false .anyCharNotNL))
      (.concat (.literal ':')
        (.concat (.capture 2 (.star false .anyCharNotNL))
          (.concat (.literal '@')
            (.concat (.capture 3 (.star false .anyCharNotNL))
              .endText)))))

/-! ## The start of `main` (lines 43-89) -/

/-- The metrics sink chosen in lines 50-62: `statsd.NoopClient`, or the client built by
`statsd.NewStatsdClient(statsdHost, statsdPrefix)`. -/
inductive Sink where
  | NoopClient
  | StatsdClient (statsdHost statsdPrefix : Text)
  deriving DecidableEq

/-- Lines 43-62 of `main`: the sink for the value of the flag `-statsd`.  The result is
`none` if the index expression `matches[0]` panics. -/
def selectSink (statsdInfo : Text) : Option Sink :=
  let statsdEnabled := regexStatsd.MatchString statsdInfo
  if statsdEnabled then
    (regexStatsd.find statsdInfo).map
      (fun m => Sink.StatsdClient (m.caps 1 ++ [':'] ++ m.caps 3) (m.caps 5))
  else
    some Sink.NoopClient

/-- The three submatches read in lines 77-79. -/
structure AsteriskInfo where
  asteriskUsername : Text
  asteriskPassword : Text
  asteriskAddress : Text
  deriving DecidableEq

/-- Lines 76-79 of `main`: `matches[0][1]`, `matches[0][2]` and `matches[0][3]` of
`regexAsterisk.FindAllStringSubmatch(asteriskInfo, -1)`; `none` if `matches[0]` panics. -/
def parseAsterisk (asteriskInfo : Text) : Option AsteriskInfo :=
  (regexAsterisk.find asteriskInfo).map (fun m => ⟨m.caps 1, m.caps 2, m.caps 3⟩)

/-- What `main` does that can be observed from outside: calls into the `statsd`, `ami`
and `logging` packages, the polls of the stop flag, the wait of line 143 and the end of
the process. -/
inductive Action where
  /-- Line 46: `logging.Error.Println("statsd disabled")`. -/
  | logStatsdDisabled
  /-- Line 57 or line 60: the sink is constructed. -/
  | newSink (sink : Sink)
  /-- Line 64: `CreateSocket()`, with whether it returned an error. -/
  | createSocket (err : Bool)
  /-- Line 66: the socket error is logged. -/
  | logSocketError
  /-- Line 67: `os.Exit(1)`. -/
  | exit1
  /-- Line 72: "could not parse asterisk connection info" is logged with the value. -/
  | logParseError (asteriskInfo : Text)
  /-- Line 81: `ami.New(asteriskAddress, asteriskUsername, asteriskPassword)`. -/
  | amiNew (asteriskAddress asteriskUsername asteriskPassword : Text)
  /-- Lines 83-86: `amiClient.RegisterHandler` for the named event. -/
  | registerHandler (event : String)
  /-- Lines 88-127: the signal channel is set up and the signal goroutine started. -/
  | startSignalGoroutine
  /-- Line 129: `shouldStop()` is called and returns `stopped`. -/
  | shouldStop (stopped : Bool)
  /-- Line 130 or line 140: `amiClient.StopKeepAlive()`. -/
  | stopKeepAlive
  /-- Line 132: `amiClient.Connect`, with whether it returned an error. -/
  | connect (err : Bool)
  /-- Line 133: the connect error is logged. -/
  | logConnectError
  /-- Line 135: "Connected to" is logged. -/
  | logConnected
  /-- Line 136: `amiClient.KeepAlive` with the interval in milliseconds. -/
  | keepAlive (ms : Nat)
  /-- Line 138: `amiClient.Run()` is called. -/
  | runCall
  /-- Line 138: `amiClient.Run()` returns. -/
  | runReturn
  /-- Line 139: "Connection lost" is logged. -/
  | logConnectionLost
  /-- Line 143: `<-time.After`, with the duration in milliseconds. -/
  | wait (ms : Nat)
  /-- Line 145: "stopped" is logged. -/
  | logStopped
  deriving DecidableEq

/-- How the part of `main` before the reconnect loop ends. -/
inductive SetupEnd where
  /-- `os.Exit(1)` in line 67. -/
  | exited
  /-- The `return` of line 73. -/
  | returned
  /-- An index expression `matches[0]` panics. -/
  | panicked
  /-- Control reaches the reconnect loop of line 129. -/
  | enterLoop
  deriving DecidableEq

/-- Lines 43-127 of `main` for the values of the flags `-statsd` and `-asterisk`;
`socketErr` says whether `CreateSocket()` returns an error.  The result is the actions
performed, in order, and how this part ends. -/
def mainSetup (statsdInfo asteriskInfo : Text) (socketErr : Bool) : List Action × SetupEnd :=
  let tr0 : List Action :=
    if regexStatsd.MatchString statsdInfo then [] else [Action.logStatsdDisabled]
  match selectSink statsdInfo with
  | none => (tr0, SetupEnd.panicked)
  | some sink =>
    let tr1 := tr0 ++ [Action.newSink sink, Action.createSocket socketErr]
    if socketErr then
      (tr1 ++ [Action.logSocketError, Action.exit1], SetupEnd.exited)
    else if !regexAsterisk.MatchString asteriskInfo then
      (tr1 ++ [Action.logParseError asteriskInfo], SetupEnd.returned)
    else
      match parseAsterisk asteriskInfo with
      | none => (tr1, SetupEnd.panicked)
      | some a =>
        (tr1 ++ [Action.amiNew a.asteriskAddress a.asteriskUsername a.asteriskPassword,
            Action.registerHandler "Newchannel", Action.registerHandler "Newstate",
            Action.registerHandler "SoftHangupRequest", Action.registerHandler "Hangup",
            Action.startSignalGoroutine],
          SetupEnd.enterLoop)

/-! ## The stop flag (lines 28-29 and 148-160) -/

/-- Lines 148-153: `shouldStop()` under `stopMutex`, as the value returned and the value
of `stopValue` afterwards. -/
def shouldStop (stopValue : Bool) : Bool × Bool :=
  (stopValue, stopValue)

/-- Lines 155-160: `stop()` under `stopMutex`, as the value of `stopValue` afterwards. -/
def stop (_stopValue : Bool) : Bool :=
  true

/-! ## The reconnect loop (lines 129-145) -/

/-- The statement of `main` that is executed next, by its line; `l138r` is the main
goroutine inside `amiClient.Run()` and `finished` is `main` after line 145. -/
inductive Pc where
  | l129 | l130 | l132 | l133 | l135 | l136 | l138 | l138r | l139 | l140 | l143 | l145
  | finished
  deriving DecidableEq

/-- The state of the program during the loop: the next statement of the main goroutine,
the global `stopValue` and the actions of the main goroutine since the loop was entered. -/
structure LoopState where
  pc : Pc
  stopValue : Bool
  trace : List Action

/-- One scheduling step. -/
inductive Input where
  /-- The signal goroutine handles `os.Interrupt` or `SIGTERM` and calls `stop()`
  (line 101). -/
  | signal
  /-- The main goroutine executes its next statement; `connectErr` is whether
  `amiClient.Connect` returns an error, should that statement be line 132. -/
  | main (connectErr : Bool)
  deriving DecidableEq

/-- The state at line 129 when the loop is entered: `stopValue` has its initial value
(line 29). -/
def loopInit : LoopState :=
  ⟨Pc.l129, false, []⟩

/-- One step of the program. -/
def step (i : Input) (s : LoopState) : LoopState :=
  match i with
  | Input.signal => ⟨s.pc, stop s.stopValue, s.trace⟩
  | Input.main connectErr =>
    match s.pc with
    | Pc.l129 =>
      let r := shouldStop s.stopValue
      if r.1 then ⟨Pc.l145, r.2, s.trace ++ [Action.shouldStop true]⟩
      else ⟨Pc.l130, r.2, s.trace ++ [Action.shouldStop false]⟩
    | Pc.l130 => ⟨Pc.l132, s.stopValue, s.trace ++ [Action.stopKeepAlive]⟩
    | Pc.l132 =>
      if connectErr then ⟨Pc.l133, s.stopValue, s.trace ++ [Action.connect true]⟩
      else ⟨Pc.l135, s.stopValue, s.trace ++ [Action.connect false]⟩
    | Pc.l133 => ⟨Pc.l143, s.stopValue, s.trace ++ [Action.logConnectError]⟩
    | Pc.l135 => ⟨Pc.l136, s.stopValue, s.trace ++ [Action.logConnected]⟩
    | Pc.l136 => ⟨Pc.l138, s.stopValue, s.trace ++ [Action.keepAlive 1000]⟩
    | Pc.l138 => ⟨Pc.l138r, s.stopValue, s.trace ++ [Action.runCall]⟩
    | Pc.l138r => ⟨Pc.l139, s.stopValue, s.trace ++ [Action.runReturn]⟩
    | Pc.l139 => ⟨Pc.l140, s.stopValue, s.trace ++ [Action.logConnectionLost]⟩
    | Pc.l140 => ⟨Pc.l143, s.stopValue, s.trace ++ [Action.stopKeepAlive]⟩
    | Pc.l143 => ⟨Pc.l129, s.stopValue, s.trace ++ [Action.wait 100]⟩
    | Pc.l145 => ⟨Pc.finished, s.stopValue, s.trace ++ [Action.logStopped]⟩
    | Pc.finished => s

/-- The state after the scheduling steps `ins`, from `s`. -/
def exec (ins : List Input) (s : LoopState) : LoopState :=
  ins.foldl (fun st i => step i st) s

/-- The loop has been left: "stopped" is being logged or `main` has returned. -/
def LoopState.left (s : LoopState) : Bool :=
  decide (s.pc = Pc.l145) || decide (s.pc = Pc.finished)

/-- An upper bound on the statements of the main goroutine before control is at line 129
again. -/
def Pc.toPoll : Pc → Nat
  | Pc.l129 => 0
  | Pc.l130 => 9
  | Pc.l132 => 8
  | Pc.l133 => 2
  | Pc.l135 => 7
  | Pc.l136 => 6
  | Pc.l138 => 5
  | Pc.l138r => 4
  | Pc.l139 => 3
  | Pc.l140 => 2
  | Pc.l143 => 1
  | Pc.l145 => 0
  | Pc.finished => 0

/-- The steps of the main goroutine in a schedule. -/
def mainSteps (ins : List Input) : Nat :=
  (ins.filter (fun i => decide (i ≠ Input.signal))).length

/-- The action is an attempt to connect. -/
def Action.isConnect : Action → Bool
  | Action.connect _ => true
  | _ => false

/-- The action is a wait. -/
def Action.isWait : Action → Bool
  | Action.wait _ => true
  | _ => false

/-- The action is a poll of the stop flag. -/
def Action.isPoll : Action → Bool
  | Action.shouldStop _ => true
  | _ => false

/-- The actions of an iteration of the loop after the poll, when `Connect` fails. -/
def iterationErr : List Action :=
  [Action.stopKeepAlive, Action.connect true, Action.logConnectError, Action.wait 100]

/-- The actions of an iteration of the loop after the poll, when `Connect` succeeds. -/
def iterationOk : List Action :=
  [Action.stopKeepAlive, Action.connect false, Action.logConnected, Action.keepAlive 1000,
    Action.runCall, Action.runReturn, Action.logConnectionLost, Action.stopKeepAlive,
    Action.wait 100]

/-! ## Vocabulary of the statements -/

/-- The thread `s` is `st` after reading a stretch of text without a line feed. -/
def Consumes (st s : MState) : Prop :=
  ∃ u : Text, st.rest = u ++ s.rest ∧ s.pos = st.pos + u.length ∧ ∀ c ∈ u, c ≠ '\n'

/-- A pattern that has no literal line feed. -/
def Regex.noNL : Regex → Prop
  | .literal c => c ≠ '\n'
  | .anyCharNotNL => True
  | .beginText => True
  | .endText => True
  | .capture _ r => r.noNL
  | .quest _ r => r.noNL
  | .star _ r => r.noNL
  | .plus _ r => r.noNL
  | .concat a b => a.noNL ∧ b.noNL

/-- What the trace of the current iteration can be when the main goroutine is about to
execute the statement `pc`: the result of the last poll and the actions since. -/
def sincePoll : Pc → List (Bool × List Action)
  | Pc.l129 => [(false, iterationErr), (false, iterationOk)]
  | Pc.l130 => [(false, [])]
  | Pc.l132 => [(false, iterationOk.take 1)]
  | Pc.l133 => [(false, iterationErr.take 2)]
  | Pc.l135 => [(false, iterationOk.take 2)]
  | Pc.l136 => [(false, iterationOk.take 3)]
  | Pc.l138 => [(false, iterationOk.take 4)]
  | Pc.l138r => [(false, iterationOk.take 5)]
  | Pc.l139 => [(false, iterationOk.take 6)]
  | Pc.l140 => [(false, iterationOk.take 7)]
  | Pc.l143 => [(false, iterationErr.take 3), (false, iterationOk.take 8)]
  | Pc.l145 => [(true, [])]
  | Pc.finished => [(true, [Action.logStopped])]

/-- The trace is made of iterations: after each poll come the actions that `sincePoll`
allows. -/
def IterInv (s : LoopState) : Prop :=
  ∀ (pre seg : List Action) (b : Bool), s.trace = pre ++ Action.shouldStop b :: seg →
    (∀ a ∈ seg, a.isPoll = false) → (b, seg) ∈ sincePoll s.pc

/-- The last action of the trace when the main goroutine is about to execute `pc`
(`none`: no action yet). -/
def lastAt : Pc → List (Option Action)
  | Pc.l129 => [none, some (Action.wait 100)]
  | Pc.l130 => [some (Action.shouldStop false)]
  | Pc.l132 => [some Action.stopKeepAlive]
  | Pc.l133 => [some (Action.connect true)]
  | Pc.l135 => [some (Action.connect false)]
  | Pc.l136 => [some Action.logConnected]
  | Pc.l138 => [some (Action.keepAlive 1000)]
  | Pc.l138r => [some Action.runCall]
  | Pc.l139 => [some Action.runReturn]
  | Pc.l140 => [some Action.logConnectionLost]
  | Pc.l143 => [some Action.logConnectError, some Action.stopKeepAlive]
  | Pc.l145 => [some (Action.shouldStop true)]
  | Pc.finished => [some Action.logStopped]

/-- The action `a` of the loop may come right after `prev` (`none`: as the first action). -/
def precedes (prev : Option Action) (a : Action) : Bool :=
  match a with
  | Action.shouldStop _ => decide (prev = none) || decide (prev = some (Action.wait 100))
  | Action.stopKeepAlive =>
    decide (prev = some (Action.shouldStop false)) || decide (prev = some Action.logConnectionLost)
  | Action.connect _ => decide (prev = some Action.stopKeepAlive)
  | Action.logConnectError => decide (prev = some (Action.connect true))
  | Action.logConnected => decide (prev = some (Action.connect false))
  | Action.keepAlive ms => decide (prev = some Action.logConnected) && decide (ms = 1000)
  | Action.runCall => decide (prev = some (Action.keepAlive 1000))
  | Action.runReturn => decide (prev = some Action.runCall)
  | Action.logConnectionLost => decide (prev = some Action.runReturn)
  | Action.wait ms =>
    decide (ms = 100) &&
      (decide (prev = some Action.logConnectError) || decide (prev = some Action.stopKeepAlive))
  | Action.logStopped => decide (prev = some (Action.shouldStop true))
  | _ => false

/-- Every action of the trace comes right after an action that `precedes` allows, and the
last action is one that `lastAt` allows. -/
def AdjInv (s : LoopState) : Prop :=
  s.trace.getLast? ∈ lastAt s.pc ∧
    ∀ (pre post : List Action) (x : Action), s.trace = pre ++ x :: post →
      precedes pre.getLast? x = true

/-- The waits since the last attempt to connect, if there was one, when the main
goroutine is about to execute `pc`. -/
def waitsAt : Pc → List Action
  | Pc.l129 => [Action.wait 100]
  | Pc.l130 => [Action.wait 100]
  | Pc.l132 => [Action.wait 100]
  | Pc.l145 => [Action.wait 100]
  | Pc.finished => [Action.wait 100]
  | _ => []

/-- Between two attempts to connect there is exactly one wait, of 100 ms, and the waits
since the last attempt are those of `waitsAt`. -/
def WaitInv (s : LoopState) : Prop :=
  (∀ (pre mid : List Action) (e : Bool), s.trace = pre ++ Action.connect e :: mid →
      (∀ a ∈ mid, a.isConnect = false) → mid.filter Action.isWait = waitsAt s.pc) ∧
    ∀ (pre mid post : List Action) (e1 e2 : Bool),
      s.trace = pre ++ Action.connect e1 :: (mid ++ Action.connect e2 :: post) →
      (∀ a ∈ mid, a.isConnect = false) → mid.filter Action.isWait = [Action.wait 100]

/-- The loop is ending on the trace `base`: the stop flag is set and control is at the
poll of line 129, at line 145 after that poll, or `main` has returned. -/
def Ending (base : List Action) (s : LoopState) : Prop :=
  s.stopValue = true ∧
    ((s.pc = Pc.l129 ∧ s.trace = base) ∨
      (s.pc = Pc.l145 ∧ s.trace = base ++ [Action.shouldStop true]) ∨
      (s.pc = Pc.finished ∧ s.trace = base ++ [Action.shouldStop true, Action.logStopped]))

/-! ## The whole of `main` -/

/-- The actions of `main` for the values of the two flags, the outcome of
`CreateSocket()` and a schedule of the reconnect loop, which runs only if the part before
it reaches it. -/
def mainRun (statsdInfo asteriskInfo : Text) (socketErr : Bool) (ins : List Input) :
    List Action :=
  match mainSetup statsdInfo asteriskInfo socketErr with
  | (tr, SetupEnd.enterLoop) => tr ++ (exec ins loopInit).trace
  | (tr, _) => tr

/-- The action creates the AMI client, registers a handler on it or attempts to
connect. -/
def Action.usesAmi : Action → Bool
  | Action.amiNew _ _ _ => true
  | Action.registerHandler _ => true
  | Action.connect _ => true
  | _ => false

/-- The value of `-asterisk` is rejected: "could not parse asterisk connection info" is
logged and `main` returns without creating the AMI client, registering a handler or
attempting to connect. -/
def Rejected (statsdInfo asteriskInfo : Text) (socketErr : Bool) : Prop :=
  (mainSetup statsdInfo asteriskInfo socketErr).2 = SetupEnd.returned ∧
    Action.logParseError asteriskInfo ∈ (mainSetup statsdInfo asteriskInfo socketErr).1 ∧
    ∀ ins, ∀ a ∈ mainRun statsdInfo asteriskInfo socketErr ins, a.usesAmi = false

/-- No call of `stop()` so far: the flag is not set and no poll has returned `true`. -/
def NoStop (s : LoopState) : Prop :=
  s.stopValue = false ∧ Action.shouldStop true ∉ s.trace

/-- Every iteration that has been followed by another poll is a whole iteration. -/
def WholeInv (s : LoopState) : Prop :=
  ∀ (pre seg post : List Action) (b b2 : Bool),
    s.trace = pre ++ Action.shouldStop b :: (seg ++ Action.shouldStop b2 :: post) →
    (∀ a ∈ seg, a.isPoll = false) → b = false ∧ (seg = iterationErr ∨ seg = iterationOk)

/-! ## Facts about the matcher -/

theorem Consumes.refl (st : MState) : Consumes st st :=
  ⟨[], by simp, by simp, by simp⟩

theorem run_literal_cons (c d : Char) (p : Nat) (t : Text) (caps : Nat → Text) :
    (Regex.literal c).run ⟨p, d :: t, caps⟩ = if d = c then [⟨p + 1, t, caps⟩] else [] := by
  simp [Regex.run]

theorem run_dot_cons (d : Char) (p : Nat) (t : Text) (caps : Nat → Text) (hd : d ≠ '\n') :
    Regex.anyCharNotNL.run ⟨p, d :: t, caps⟩ = [⟨p + 1, t, caps⟩] := by
  simp [Regex.run, hd]

theorem run_concat (a b : Regex) (st : MState) :
    (Regex.concat a b).run st = (a.run st).flatMap (fun s => b.run s) := by
  simp only [Regex.run]

theorem run_capture (i : Nat) (r : Regex) (st : MState) :
    (Regex.capture i r).run st = (r.run st).map
      (fun s => ⟨s.pos, s.rest, setCap s.caps i (st.rest.take (s.pos - st.pos))⟩) := by
  simp only [Regex.run]

theorem run_star (g : Bool) (r : Regex) (st : MState) :
    (Regex.star g r).run st = starLoop g (fun s => r.run s) st.rest.length st := by
  simp only [Regex.run]

theorem run_plus (g : Bool) (r : Regex) (st : MState) :
    (Regex.plus g r).run st
      = (r.run st).flatMap (fun s => starLoop g (fun s1 => r.run s1) s.rest.length s) := by
  simp only [Regex.run]

theorem run_quest (g : Bool) (r : Regex) (st : MState) :
    (Regex.quest g r).run st = if g then r.run st ++ [st] else st :: r.run st := by
  simp only [Regex.run]

theorem run_beginText (st : MState) :
    Regex.beginText.run st = if st.pos = 0 then [st] else [] := by
  simp only [Regex.run]

theorem run_endText_nil (p : Nat) (caps : Nat → Text) :
    Regex.endText.run ⟨p, [], caps⟩ = [⟨p, [], caps⟩] := by
  simp only [Regex.run]

theorem run_endText_cons (p : Nat) (d : Char) (t : Text) (caps : Nat → Text) :
    Regex.endText.run ⟨p, d :: t, caps⟩ = [] := by
  simp only [Regex.run]

theorem flatMap_cons_eq_append {α β : Type} (f : α → List β) (x : α) (tl : List α)
    (A : List β) (h : f x = A) : ∃ t, (x :: tl).flatMap f = A ++ t :=
  ⟨tl.flatMap f, by simp [h]⟩

/-- The lazy loop offers the current thread first. -/
theorem starLoop_lazy_head (body : MState → List MState) (fuel : Nat) (st : MState) :
    ∃ tl, starLoop false body fuel st = st :: tl := by
  cases fuel with
  | zero => exact ⟨[], rfl⟩
  | succ n => exact ⟨_, rfl⟩

/-- One more rune of the lazy `.*?`. -/
theorem lazyDot_step (n p : Nat) (d : Char) (t : Text) (caps : Nat → Text) (hd : d ≠ '\n') :
    starLoop false (fun s => Regex.anyCharNotNL.run s) (n + 1) ⟨p, d :: t, caps⟩
      = ⟨p, d :: t, caps⟩ ::
        starLoop false (fun s => Regex.anyCharNotNL.run s) n ⟨p + 1, t, caps⟩ := by
  simp [starLoop, run_dot_cons, hd]

/-- The lazy `.*?` followed by `f`: the lengths at which `f` fails are passed over. -/
theorem lazyDot_skip (f : MState → List MState) (caps : Nat → Text) :
    ∀ (u v : Text) (p n : Nat), (∀ c ∈ u, c ≠ '\n') → u.length ≤ n →
      (∀ u1 u2, u = u1 ++ u2 → u2 ≠ [] → f ⟨p + u1.length, u2 ++ v, caps⟩ = []) →
      (starLoop false (fun s => Regex.anyCharNotNL.run s) n ⟨p, u ++ v, caps⟩).flatMap f
        = (starLoop false (fun s => Regex.anyCharNotNL.run s) (n - u.length)
            ⟨p + u.length, v, caps⟩).flatMap f := by
  intro u
  induction u with
  | nil => intro v p n _ _ _; simp
  | cons d u ih =>
    intro v p n hnl hn hskip
    obtain ⟨m, rfl⟩ : ∃ m, n = m + 1 := ⟨n - 1, by simp at hn; omega⟩
    have hd : d ≠ '\n' := hnl d (by simp)
    have h0 : f ⟨p, d :: (u ++ v), caps⟩ = [] := by
      have h := hskip [] (d :: u) rfl (by simp)
      simp only [List.length_nil, Nat.add_zero, List.cons_append] at h
      exact h
    have hrec := ih v (p + 1) m (fun c hc => hnl c (by simp [hc])) (by simp at hn; omega)
      (fun u1 u2 h12 hne => by
        have := hskip (d :: u1) u2 (by simp [h12]) hne
        simpa [Nat.add_assoc, Nat.add_comm 1] using this)
    simp only [List.cons_append, lazyDot_step _ _ _ _ _ hd, List.flatMap_cons, h0,
      List.nil_append]
    rw [hrec]
    simp [Nat.add_assoc, Nat.add_comm 1]

/-- Every stretch without a line feed is a way for the lazy `.*?` to match. -/
theorem lazyDot_mem (caps : Nat → Text) :
    ∀ (u v : Text) (p n : Nat), (∀ c ∈ u, c ≠ '\n') → u.length ≤ n →
      (⟨p + u.length, v, caps⟩ : MState) ∈
        starLoop false (fun s => Regex.anyCharNotNL.run s) n ⟨p, u ++ v, caps⟩ := by
  intro u
  induction u with
  | nil =>
    intro v p n _ _
    obtain ⟨tl, h⟩ := starLoop_lazy_head (fun s => Regex.anyCharNotNL.run s) n ⟨p, v, caps⟩
    simp [h]
  | cons d u ih =>
    intro v p n hnl hn
    obtain ⟨m, rfl⟩ : ∃ m, n = m + 1 := ⟨n - 1, by simp at hn; omega⟩
    have hd : d ≠ '\n' := hnl d (by simp)
    have hrec := ih v (p + 1) m (fun c hc => hnl c (by simp [hc])) (by simp at hn; omega)
    simp only [List.cons_append, lazyDot_step _ _ _ _ _ hd]
    refine List.mem_cons_of_mem _ ?_
    simpa [Nat.add_assoc, Nat.add_comm 1] using hrec

/-- A group `(.*?)` followed by `k`: the first match takes the shortest text after which
`k` matches. -/
theorem lazyGroup_first (i : Nat) (k : Regex) (u v : Text) (p : Nat) (caps : Nat → Text)
    (hnl : ∀ c ∈ u, c ≠ '\n')
    (hskip : ∀ u1 u2, u = u1 ++ u2 → u2 ≠ [] →
      k.run ⟨p + u1.length, u2 ++ v, setCap caps i u1⟩ = []) :
    ∃ tl, (Regex.concat (.capture i (.star false .anyCharNotNL)) k).run ⟨p, u ++ v, caps⟩
      = k.run ⟨p + u.length, v, setCap caps i u⟩ ++ tl := by
  rw [run_concat, run_capture, run_star, List.flatMap_map]
  rw [lazyDot_skip _ caps u v p _ hnl (by simp)]
  · obtain ⟨tl, h⟩ := starLoop_lazy_head (fun s => Regex.anyCharNotNL.run s)
      ((u ++ v).length - u.length) ⟨p + u.length, v, caps⟩
    rw [h]
    exact flatMap_cons_eq_append _ _ _ _ (by simp)
  · intro u1 u2 h12 hne
    have := hskip u1 u2 h12 hne
    simpa [h12] using this

/-- A group `(.+?)` followed by `k`: the first match takes the shortest text of at least
one rune after which `k` matches. -/
theorem lazyPlusGroup_first (i : Nat) (k : Regex) (d : Char) (u v : Text) (p : Nat)
    (caps : Nat → Text) (hnl : ∀ c ∈ d :: u, c ≠ '\n')
    (hskip : ∀ u1 u2, u = u1 ++ u2 → u2 ≠ [] →
      k.run ⟨p + (d :: u1).length, u2 ++ v, setCap caps i (d :: u1)⟩ = []) :
    ∃ tl, (Regex.concat (.capture i (.plus false .anyCharNotNL)) k).run
        ⟨p, d :: u ++ v, caps⟩
      = k.run ⟨p + (d :: u).length, v, setCap caps i (d :: u)⟩ ++ tl := by
  have hd : d ≠ '\n' := hnl d (by simp)
  rw [run_concat, run_capture, run_plus, List.flatMap_map, List.cons_append,
    run_dot_cons _ _ _ _ hd]
  simp only [List.flatMap_cons, List.flatMap_nil, List.append_nil]
  rw [lazyDot_skip _ caps u v (p + 1) _ (fun c hc => hnl c (by simp [hc])) (by simp)]
  · obtain ⟨tl, h⟩ := starLoop_lazy_head (fun s => Regex.anyCharNotNL.run s)
      ((u ++ v).length - u.length) ⟨p + 1 + u.length, v, caps⟩
    rw [h]
    exact flatMap_cons_eq_append _ _ _ _ (by simp [Nat.add_assoc, Nat.add_comm 1])
  · intro u1 u2 h12 hne
    have := hskip u1 u2 h12 hne
    simpa [h12, Nat.add_assoc, Nat.add_comm 1] using this

theorem Consumes.trans {a b c : MState} (h1 : Consumes a b) (h2 : Consumes b c) :
    Consumes a c := by
  obtain ⟨u, hu, hp, hn⟩ := h1
  obtain ⟨v, hv, hq, hm⟩ := h2
  refine ⟨u ++ v, by simp [hu, hv], by simp [hp, hq, Nat.add_assoc], ?_⟩
  intro c hc
  rcases List.mem_append.mp hc with h | h
  · exact hn c h
  · exact hm c h

theorem starLoop_consumes (greedy : Bool) (body : MState → List MState)
    (hb : ∀ st s, s ∈ body st → Consumes st s) :
    ∀ (fuel : Nat) (st s : MState), s ∈ starLoop greedy body fuel st → Consumes st s := by
  intro fuel
  induction fuel with
  | zero =>
    intro st s h
    simp [starLoop] at h
    subst h
    exact Consumes.refl _
  | succ n ih =>
    intro st s h
    have key : s = st ∨ ∃ a, a ∈ body st ∧ s ∈ starLoop greedy body n a := by
      cases greedy <;> simp [starLoop, List.mem_flatMap] at h
      · rcases h with h | ⟨a, ⟨ha, _⟩, hs⟩
        · exact Or.inl h
        · exact Or.inr ⟨a, ha, hs⟩
      · rcases h with ⟨a, ⟨ha, _⟩, hs⟩ | h
        · exact Or.inr ⟨a, ha, hs⟩
        · exact Or.inl h
    rcases key with h | ⟨a, ha, hs⟩
    · subst h
      exact Consumes.refl _
    · exact (hb st a ha).trans (ih a s hs)

/-- A match of a pattern without a literal line feed reads no line feed. -/
theorem run_consumes :
    ∀ (r : Regex), r.noNL → ∀ (st s : MState), s ∈ r.run st → Consumes st s := by
  intro r
  induction r with
  | literal c =>
    intro hc st s h
    rcases st with ⟨p, rest, caps⟩
    cases rest with
    | nil => simp [Regex.run] at h
    | cons d t =>
      by_cases hd : d = c
      · simp [Regex.run, hd] at h
        subst h
        refine ⟨[c], by simp [hd], by simp, ?_⟩
        intro x hx
        simp at hx
        subst hx
        exact hc
      · simp [Regex.run, hd] at h
  | anyCharNotNL =>
    intro _ st s h
    rcases st with ⟨p, rest, caps⟩
    cases rest with
    | nil => simp [Regex.run] at h
    | cons d t =>
      by_cases hd : d = '\n'
      · simp [Regex.run, hd] at h
      · simp [Regex.run, hd] at h
        subst h
        refine ⟨[d], by simp, by simp, ?_⟩
        intro x hx
        simp at hx
        subst hx
        exact hd
  | beginText =>
    intro _ st s h
    by_cases hp : st.pos = 0
    · simp [Regex.run, hp] at h
      subst h
      exact Consumes.refl _
    · simp [Regex.run, hp] at h
  | endText =>
    intro _ st s h
    rcases st with ⟨p, rest, caps⟩
    cases rest with
    | nil =>
      simp [Regex.run] at h
      subst h
      exact Consumes.refl _
    | cons d t => simp [Regex.run] at h
  | capture i r ih =>
    intro hr st s h
    simp [Regex.run] at h
    obtain ⟨a, ha, rfl⟩ := h
    obtain ⟨u, hu, hp, hn⟩ := ih hr st a ha
    exact ⟨u, hu, hp, hn⟩
  | quest g r ih =>
    intro hr st s h
    have key : s = st ∨ s ∈ r.run st := by
      cases g <;> simp [Regex.run] at h
      · exact h
      · exact h.symm
    rcases key with h | h
    · subst h
      exact Consumes.refl _
    · exact ih hr st s h
  | star g r ih =>
    intro hr st s h
    simp only [Regex.run] at h
    exact starLoop_consumes g _ (fun a b hab => ih hr a b hab) _ st s h
  | plus g r ih =>
    intro hr st s h
    simp only [Regex.run, List.mem_flatMap] at h
    obtain ⟨a, ha, hs⟩ := h
    exact (ih hr st a ha).trans (starLoop_consumes g _ (fun a b hab => ih hr a b hab) _ a s hs)
  | concat a b iha ihb =>
    intro hr st s h
    simp only [Regex.run, List.mem_flatMap] at h
    obtain ⟨m, hm, hs⟩ := h
    exact (iha hr.1 st m hm).trans (ihb hr.2 m s hs)

theorem concat_literal_ne (c d : Char) (k : Regex) (p : Nat) (t : Text) (caps : Nat → Text)
    (h : d ≠ c) : (Regex.concat (.literal c) k).run ⟨p, d :: t, caps⟩ = [] := by
  rw [run_concat, run_literal_cons]
  simp [h]

theorem concat_literal_eq (c : Char) (k : Regex) (p : Nat) (t : Text) (caps : Nat → Text) :
    (Regex.concat (.literal c) k).run ⟨p, c :: t, caps⟩ = k.run ⟨p + 1, t, caps⟩ := by
  rw [run_concat, run_literal_cons]
  simp

/-- The pattern of line 70 on `user:password@address`: the first match. -/
theorem regexAsterisk_first (user password address : Text)
    (hu : ':' ∉ user) (hun : '\n' ∉ user) (hp : '@' ∉ password) (hpn : '\n' ∉ password)
    (han : '\n' ∉ address) :
    ∃ p tl, regexAsterisk.run ⟨0, user ++ ':' :: (password ++ '@' :: address), fun _ => []⟩
      = ⟨p, [], setCap (setCap (setCap (fun _ => []) 1 user) 2 password) 3 address⟩ :: tl := by
  unfold regexAsterisk
  rw [run_concat, run_beginText]
  simp only [if_true, List.flatMap_cons, List.flatMap_nil, List.append_nil]
  obtain ⟨tl1, h1⟩ := lazyGroup_first 1
    (.concat (.literal ':') (.concat (.capture 2 (.star false .anyCharNotNL))
      (.concat (.literal '@') (.concat (.capture 3 (.star false .anyCharNotNL)) .endText))))
    user (':' :: (password ++ '@' :: address)) 0 (fun _ => [])
    (fun c hc h => hun (h ▸ hc))
    (by
      intro u1 u2 h12 hne
      cases u2 with
      | nil => exact absurd rfl hne
      | cons e u2 =>
        refine concat_literal_ne _ _ _ _ _ _ ?_
        intro he
        exact hu (by simp [h12, he]))
  rw [h1, concat_literal_eq]
  obtain ⟨tl2, h2⟩ := lazyGroup_first 2
    (.concat (.literal '@') (.concat (.capture 3 (.star false .anyCharNotNL)) .endText))
    password ('@' :: address) (0 + user.length + 1) (setCap (fun _ => []) 1 user)
    (fun c hc h => hpn (h ▸ hc))
    (by
      intro u1 u2 h12 hne
      cases u2 with
      | nil => exact absurd rfl hne
      | cons e u2 =>
        refine concat_literal_ne _ _ _ _ _ _ ?_
        intro he
        exact hp (by simp [h12, he]))
  rw [h2, concat_literal_eq]
  obtain ⟨tl3, h3⟩ := lazyGroup_first 3 .endText address [] (0 + user.length + 1 + password.length + 1)
    (setCap (setCap (fun _ => []) 1 user) 2 password)
    (fun c hc h => han (h ▸ hc))
    (by
      intro u1 u2 h12 hne
      cases u2 with
      | nil => exact absurd rfl hne
      | cons e u2 => exact run_endText_cons _ _ _ _)
  rw [List.append_nil] at h3
  rw [h3, run_endText_nil]
  exact ⟨_, _, rfl⟩

theorem findFrom_of_head (re : Regex) (p : Nat) (s : Text) (m : MState) (tl : List MState)
    (h : re.run ⟨p, s, fun _ => []⟩ = m :: tl) : findFrom re p s = some m := by
  cases s <;> simp [findFrom, h]

theorem parseAsterisk_spec (user password address : Text)
    (hu : ':' ∉ user) (hun : '\n' ∉ user) (hp : '@' ∉ password) (hpn : '\n' ∉ password)
    (han : '\n' ∉ address) :
    parseAsterisk (user ++ [':'] ++ password ++ ['@'] ++ address)
      = some ⟨user, password, address⟩ := by
  obtain ⟨p, tl, h⟩ := regexAsterisk_first user password address hu hun hp hpn han
  have hs : user ++ [':'] ++ password ++ ['@'] ++ address
      = user ++ ':' :: (password ++ '@' :: address) := by simp
  rw [hs]
  unfold parseAsterisk Regex.find
  rw [findFrom_of_head _ _ _ _ _ h]
  simp [setCap]

/-- The lazy `.*?` followed by `f`: the first results are those of `f` after the shortest
text at which `f` does not fail. -/
theorem lazyDotRun_first (f : MState → List MState) (u v : Text) (p : Nat)
    (caps : Nat → Text) (hnl : ∀ c ∈ u, c ≠ '\n')
    (hskip : ∀ u1 u2, u = u1 ++ u2 → u2 ≠ [] → f ⟨p + u1.length, u2 ++ v, caps⟩ = []) :
    ∃ tl, ((Regex.star false .anyCharNotNL).run ⟨p, u ++ v, caps⟩).flatMap f
      = f ⟨p + u.length, v, caps⟩ ++ tl := by
  rw [run_star, lazyDot_skip f caps u v p _ hnl (by simp) hskip]
  obtain ⟨tl, h⟩ := starLoop_lazy_head (fun s => Regex.anyCharNotNL.run s)
    ((u ++ v).length - u.length) ⟨p + u.length, v, caps⟩
  rw [h]
  exact flatMap_cons_eq_append _ _ _ _ rfl

/-- An optional group `(c(.*?))?` is passed over where the text does not go on with `c`. -/
theorem optGroup_skip (i : Nat) (c d : Char) (x k : Regex) (p : Nat) (t : Text)
    (caps : Nat → Text) (h : d ≠ c) :
    (Regex.concat (.quest true (.capture i (.concat (.literal c) x))) k).run ⟨p, d :: t, caps⟩
      = k.run ⟨p, d :: t, caps⟩ := by
  rw [run_concat, run_quest, run_capture, concat_literal_ne _ _ _ _ _ _ h]
  simp

/-- An optional group `(c(.*?))?` at the end of the text is passed over. -/
theorem optGroup_skip_nil (i : Nat) (c : Char) (x k : Regex) (p : Nat) (caps : Nat → Text) :
    (Regex.concat (.quest true (.capture i (.concat (.literal c) x))) k).run ⟨p, [], caps⟩
      = k.run ⟨p, [], caps⟩ := by
  rw [run_concat, run_quest, run_capture, run_concat]
  simp [Regex.run]

/-- An optional group `(c(.*?))?` followed by `k`, where the text goes on with `c`: the
first match takes the shortest text after which `k` matches. -/
theorem optGroup_first (i j : Nat) (c : Char) (k : Regex) (u v : Text) (p : Nat)
    (caps : Nat → Text) (hnl : ∀ e ∈ u, e ≠ '\n')
    (hskip : ∀ u1 u2, u = u1 ++ u2 → u2 ≠ [] →
      k.run ⟨p + 1 + u1.length, u2 ++ v, setCap (setCap caps j u1) i (c :: u1)⟩ = []) :
    ∃ tl, (Regex.concat (.quest true (.capture i (.concat (.literal c)
          (.capture j (.star false .anyCharNotNL))))) k).run ⟨p, c :: (u ++ v), caps⟩
      = k.run ⟨p + 1 + u.length, v, setCap (setCap caps j u) i (c :: u)⟩ ++ tl := by
  rw [run_concat, run_quest, run_capture, concat_literal_eq, run_capture]
  simp only [if_true, List.flatMap_append, List.flatMap_map, List.map_map]
  obtain ⟨tl, h⟩ := lazyDotRun_first
    (fun s => k.run ⟨s.pos, s.rest,
      setCap (setCap s.caps j ((u ++ v).take (s.pos - (p + 1)))) i
        ((c :: (u ++ v)).take (s.pos - p))⟩)
    u v (p + 1) caps hnl
    (by
      intro u1 u2 h12 hne
      have := hskip u1 u2 h12 hne
      have e1 : p + 1 + u1.length - p = u1.length + 1 := by omega
      simp only [Nat.add_sub_cancel_left, e1, List.take_succ_cons]
      simpa [h12] using this)
  have e2 : p + 1 + u.length - p = u.length + 1 := by omega
  simp only [Nat.add_sub_cancel_left, e2, List.take_succ_cons, List.take_left'] at h
  refine ⟨tl ++ ([(⟨p, c :: (u ++ v), caps⟩ : MState)].flatMap fun s => k.run s), ?_⟩
  rw [← List.append_assoc, ← h]
  rfl

/-- The pattern of line 44 on `host:port/prefix`: the first match. -/
theorem regexStatsd_first (d : Char) (host port pfx : Text)
    (hc : ':' ∉ d :: host) (hs : '/' ∉ d :: host) (hn : '\n' ∉ d :: host)
    (ps : '/' ∉ port) (pn : '\n' ∉ port) (xn : '\n' ∉ pfx) :
    ∃ p tl, regexStatsd.run ⟨0, (d :: host) ++ ':' :: (port ++ '/' :: pfx), fun _ => []⟩
      = ⟨p, [], setCap (setCap (setCap (setCap (setCap (fun _ => []) 1 (d :: host)) 3 port)
          2 (':' :: port)) 5 pfx) 4 ('/' :: pfx)⟩ :: tl := by
  unfold regexStatsd
  rw [run_concat, run_beginText]
  simp only [if_true, List.flatMap_cons, List.flatMap_nil, List.append_nil]
  obtain ⟨tl1, h1⟩ := lazyPlusGroup_first 1
    (.concat (.quest true (.capture 2 (.concat (.literal ':')
        (.capture 3 (.star false .anyCharNotNL)))))
      (.concat (.quest true (.capture 4 (.concat (.literal '/')
          (.capture 5 (.star false .anyCharNotNL))))) .endText))
    d host (':' :: (port ++ '/' :: pfx)) 0 (fun _ => [])
    (fun c hc h => hn (h ▸ hc))
    (by
      intro u1 u2 h12 hne
      cases u2 with
      | nil => exact absurd rfl hne
      | cons e u2 =>
        have he1 : e ≠ ':' := fun he => hc (by simp [h12, he])
        have he2 : e ≠ '/' := fun he => hs (by simp [h12, he])
        rw [List.cons_append, optGroup_skip _ _ _ _ _ _ _ _ he1,
          optGroup_skip _ _ _ _ _ _ _ _ he2, run_endText_cons])
  rw [h1]
  obtain ⟨tl2, h2⟩ := optGroup_first 2 3 ':'
    (.concat (.quest true (.capture 4 (.concat (.literal '/')
        (.capture 5 (.star false .anyCharNotNL))))) .endText)
    port ('/' :: pfx) (0 + (d :: host).length) (setCap (fun _ => []) 1 (d :: host))
    (fun c hc h => pn (h ▸ hc))
    (by
      intro u1 u2 h12 hne
      cases u2 with
      | nil => exact absurd rfl hne
      | cons e u2 =>
        have he2 : e ≠ '/' := fun he => ps (by simp [h12, he])
        rw [List.cons_append, optGroup_skip _ _ _ _ _ _ _ _ he2, run_endText_cons])
  rw [h2]
  obtain ⟨tl3, h3⟩ := optGroup_first 4 5 '/' .endText pfx []
    (0 + (d :: host).length + 1 + port.length)
    (setCap (setCap (setCap (fun _ => []) 1 (d :: host)) 3 port) 2 (':' :: port))
    (fun c hc h => xn (h ▸ hc))
    (by
      intro u1 u2 h12 hne
      cases u2 with
      | nil => exact absurd rfl hne
      | cons e u2 => exact run_endText_cons _ _ _ _)
  rw [List.append_nil] at h3
  rw [h3, run_endText_nil]
  exact ⟨_, _, rfl⟩

/-! ### Which texts match -/

theorem mem_literal {c : Char} {st s : MState} (h : s ∈ (Regex.literal c).run st) :
    st.rest = c :: s.rest := by
  rcases st with ⟨p, rest, caps⟩
  cases rest with
  | nil => simp [Regex.run] at h
  | cons d t =>
    by_cases hd : d = c
    · simp [Regex.run, hd] at h
      subst h
      simp [hd]
    · simp [Regex.run, hd] at h

theorem mem_dot {st s : MState} (h : s ∈ Regex.anyCharNotNL.run st) : st.rest ≠ [] := by
  rcases st with ⟨p, rest, caps⟩
  cases rest with
  | nil => simp [Regex.run] at h
  | cons d t => simp

theorem mem_endText {st s : MState} (h : s ∈ Regex.endText.run st) : s.rest = [] := by
  rcases st with ⟨p, rest, caps⟩
  cases rest with
  | nil =>
    simp [Regex.run] at h
    subst h
    rfl
  | cons d t => simp [Regex.run] at h

theorem mem_beginText {st s : MState} (h : s ∈ Regex.beginText.run st) :
    s = st ∧ st.pos = 0 := by
  rw [run_beginText] at h
  by_cases hp : st.pos = 0
  · simp [hp] at h
    exact ⟨h, hp⟩
  · simp [hp] at h

theorem mem_concat {a b : Regex} {st s : MState} (h : s ∈ (Regex.concat a b).run st) :
    ∃ m, m ∈ a.run st ∧ s ∈ b.run m := by
  rw [run_concat] at h
  exact List.mem_flatMap.mp h

theorem mem_concat_of {a b : Regex} {st m s : MState} (h1 : m ∈ a.run st) (h2 : s ∈ b.run m) :
    s ∈ (Regex.concat a b).run st := by
  rw [run_concat]
  exact List.mem_flatMap.mpr ⟨m, h1, h2⟩

/-- A pattern that starts with `^` matches nowhere but at the start of the text. -/
theorem findFrom_beginText_succ (k : Regex) :
    ∀ (s : Text) (p : Nat), findFrom (.concat .beginText k) (p + 1) s = none := by
  intro s
  induction s with
  | nil =>
    intro p
    simp [findFrom, run_concat, run_beginText]
  | cons c t ih =>
    intro p
    simp [findFrom, run_concat, run_beginText, ih]

/-- For a pattern that starts with `^`, the search finds a match exactly if the pattern
matches at the start of the text. -/
theorem find_beginText_isSome (k : Regex) (s : Text) :
    ((Regex.concat .beginText k).find s).isSome = true
      ↔ ∃ m, m ∈ (Regex.concat .beginText k).run ⟨0, s, fun _ => []⟩ := by
  unfold Regex.find
  cases s with
  | nil =>
    cases hrun : (Regex.concat .beginText k).run ⟨0, [], fun _ => []⟩ <;> simp [findFrom, hrun]
  | cons c t =>
    cases hrun : (Regex.concat .beginText k).run ⟨0, c :: t, fun _ => []⟩ <;>
      simp [findFrom, hrun, findFrom_beginText_succ]

theorem mem_lazyGroup (i : Nat) (u v : Text) (p : Nat) (caps : Nat → Text)
    (hnl : ∀ c ∈ u, c ≠ '\n') :
    (⟨p + u.length, v, setCap caps i u⟩ : MState)
      ∈ (Regex.capture i (.star false .anyCharNotNL)).run ⟨p, u ++ v, caps⟩ := by
  rw [run_capture, run_star]
  refine List.mem_map.mpr ⟨⟨p + u.length, v, caps⟩, lazyDot_mem caps u v p _ hnl (by simp), ?_⟩
  simp

theorem mem_lazyPlusGroup (i : Nat) (d : Char) (u v : Text) (p : Nat) (caps : Nat → Text)
    (hnl : ∀ c ∈ d :: u, c ≠ '\n') :
    (⟨p + (d :: u).length, v, setCap caps i (d :: u)⟩ : MState)
      ∈ (Regex.capture i (.plus false .anyCharNotNL)).run ⟨p, d :: u ++ v, caps⟩ := by
  have hd : d ≠ '\n' := hnl d (by simp)
  rw [run_capture, run_plus, List.cons_append, run_dot_cons _ _ _ _ hd]
  refine List.mem_map.mpr ⟨⟨p + (d :: u).length, v, caps⟩, ?_, ?_⟩
  · simp only [List.flatMap_cons, List.flatMap_nil, List.append_nil]
    have := lazyDot_mem caps u v (p + 1) (u ++ v).length
      (fun c hc => hnl c (by simp [hc])) (by simp)
    simpa [Nat.add_assoc, Nat.add_comm 1] using this
  · simp

theorem regexStatsd_noNL : regexStatsd.noNL := by
  simp [regexStatsd, Regex.noNL]

theorem regexAsterisk_noNL : regexAsterisk.noNL := by
  simp [regexAsterisk, Regex.noNL]

theorem consumes_all {s : Text} {p : Nat} {caps : Nat → Text} {m : MState}
    (h : Consumes ⟨p, s, caps⟩ m) (hm : m.rest = []) : '\n' ∉ s := by
  obtain ⟨u, hu, _, hn⟩ := h
  simp only [hm, List.append_nil] at hu
  subst hu
  intro hmem
  exact hn _ hmem rfl

/-- Line 45: the value of `-statsd` matches exactly if it is not empty and has no line
feed. -/
theorem regexStatsd_match_iff (s : Text) :
    regexStatsd.MatchString s = true ↔ s ≠ [] ∧ '\n' ∉ s := by
  unfold Regex.MatchString
  have hre : regexStatsd = Regex.concat .beginText
      (.concat (.capture 1 (.plus false .anyCharNotNL))
      (.concat (.quest true (.capture 2 (.concat (.literal ':')
          (.capture 3 (.star false .anyCharNotNL)))))
        (.concat (.quest true (.capture 4 (.concat (.literal '/')
            (.capture 5 (.star false .anyCharNotNL)))))
          .endText))) := rfl
  constructor
  · intro h
    rw [hre, find_beginText_isSome, ← hre] at h
    obtain ⟨m, hm⟩ := h
    have hcons := run_consumes regexStatsd regexStatsd_noNL _ _ hm
    rw [hre] at hm
    obtain ⟨s1, h1, hm⟩ := mem_concat hm
    obtain ⟨s2, h2, hm⟩ := mem_concat hm
    obtain ⟨s3, h3, hm⟩ := mem_concat hm
    obtain ⟨s4, h4, hm⟩ := mem_concat hm
    have hend := mem_endText hm
    refine ⟨?_, consumes_all hcons hend⟩
    obtain ⟨rfl, _⟩ := mem_beginText h1
    rw [run_capture, run_plus] at h2
    obtain ⟨a, ha, _⟩ := List.mem_map.mp h2
    obtain ⟨b, hb, _⟩ := List.mem_flatMap.mp ha
    exact mem_dot hb
  · rintro ⟨hne, hnl⟩
    rw [hre, find_beginText_isSome]
    cases s with
    | nil => exact absurd rfl hne
    | cons d t =>
      refine ⟨⟨0 + (d :: t).length, [], setCap (fun _ => []) 1 (d :: t)⟩, ?_⟩
      refine mem_concat_of (m := ⟨0, d :: t, fun _ => []⟩) (by simp [run_beginText]) ?_
      refine mem_concat_of (m := ⟨0 + (d :: t).length, [], setCap (fun _ => []) 1 (d :: t)⟩) ?_ ?_
      · have := mem_lazyPlusGroup 1 d t [] 0 (fun _ => [])
          (fun c hc h => hnl (h ▸ hc))
        simpa using this
      · rw [optGroup_skip_nil, optGroup_skip_nil, run_endText_nil]
        simp

/-- Line 71: the value of `-asterisk` matches exactly if it has no line feed and has a
colon with an at sign somewhere after it. -/
theorem regexAsterisk_match_iff (s : Text) :
    regexAsterisk.MatchString s = true
      ↔ '\n' ∉ s ∧ ∃ a b c : Text, s = a ++ ':' :: (b ++ '@' :: c) := by
  unfold Regex.MatchString
  have hre : regexAsterisk = Regex.concat .beginText
      (.concat (.capture 1 (.star false .anyCharNotNL))
      (.concat (.literal ':')
        (.concat (.capture 2 (.star false .anyCharNotNL))
          (.concat (.literal '@')
            (.concat (.capture 3 (.star false .anyCharNotNL))
              .endText))))) := rfl
  constructor
  · intro h
    rw [hre, find_beginText_isSome, ← hre] at h
    obtain ⟨m, hm⟩ := h
    have hcons := run_consumes regexAsterisk regexAsterisk_noNL _ _ hm
    rw [hre] at hm
    obtain ⟨s1, h1, hm⟩ := mem_concat hm
    obtain ⟨s2, h2, hm⟩ := mem_concat hm
    obtain ⟨s3, h3, hm⟩ := mem_concat hm
    obtain ⟨s4, h4, hm⟩ := mem_concat hm
    obtain ⟨s5, h5, hm⟩ := mem_concat hm
    obtain ⟨s6, h6, hm⟩ := mem_concat hm
    have hend := mem_endText hm
    refine ⟨consumes_all hcons hend, ?_⟩
    obtain ⟨rfl, _⟩ := mem_beginText h1
    obtain ⟨u1, e1, _, _⟩ := run_consumes _ (by simp [Regex.noNL]) _ _ h2
    have e2 := mem_literal h3
    obtain ⟨u2, e3, _, _⟩ := run_consumes _ (by simp [Regex.noNL]) _ _ h4
    have e4 := mem_literal h5
    refine ⟨u1, u2, s5.rest, ?_⟩
    simp only at e1
    rw [e1, e2, e3, e4]
  · rintro ⟨hnl, a, b, c, rfl⟩
    rw [hre, find_beginText_isSome]
    have ha : ∀ x ∈ a, x ≠ '\n' := fun x hx h => hnl (by subst h; simp [hx])
    have hb : ∀ x ∈ b, x ≠ '\n' := fun x hx h => hnl (by subst h; simp [hx])
    have hc : ∀ x ∈ c, x ≠ '\n' := fun x hx h => hnl (by subst h; simp [hx])
    refine ⟨⟨0 + a.length + 1 + b.length + 1 + c.length, [],
      setCap (setCap (setCap (fun _ => []) 1 a) 2 b) 3 c⟩, ?_⟩
    refine mem_concat_of (m := ⟨0, a ++ ':' :: (b ++ '@' :: c), fun _ => []⟩)
      (by simp [run_beginText]) ?_
    refine mem_concat_of (mem_lazyGroup 1 a _ 0 _ ha) ?_
    rw [concat_literal_eq]
    refine mem_concat_of (mem_lazyGroup 2 b _ _ _ hb) ?_
    rw [concat_literal_eq]
    refine mem_concat_of (m := ⟨0 + a.length + 1 + b.length + 1 + c.length, [],
      setCap (setCap (setCap (fun _ => []) 1 a) 2 b) 3 c⟩) ?_ ?_
    · have := mem_lazyGroup 3 c [] (0 + a.length + 1 + b.length + 1)
        (setCap (setCap (fun _ => []) 1 a) 2 b) hc
      rw [List.append_nil] at this
      exact this
    · rw [run_endText_nil]
      simp

/-! ## Facts about the reconnect loop -/

theorem exec_nil (s : LoopState) : exec [] s = s := rfl

theorem exec_cons (i : Input) (ins : List Input) (s : LoopState) :
    exec (i :: ins) s = exec ins (step i s) := rfl

theorem exec_append (xs ys : List Input) (s : LoopState) :
    exec (xs ++ ys) s = exec ys (exec xs s) := by
  simp [exec, List.foldl_append]

theorem exec_snoc (xs : List Input) (i : Input) (s : LoopState) :
    exec (xs ++ [i]) s = step i (exec xs s) := by
  rw [exec_append]
  rfl

/-- A property kept by every step holds after every schedule. -/
theorem exec_induct (P : LoopState → Prop) (hstep : ∀ i s, P s → P (step i s)) :
    ∀ (ins : List Input) (s : LoopState), P s → P (exec ins s) := by
  intro ins
  induction ins with
  | nil => intro s h; exact h
  | cons i ins ih => intro s h; exact ih _ (hstep i s h)

theorem snoc_eq_split {α : Type} (tr pre post : List α) (a x : α)
    (h : tr ++ [a] = pre ++ x :: post) :
    (post = [] ∧ tr = pre ∧ a = x) ∨ ∃ post0, post = post0 ++ [a] ∧ tr = pre ++ x :: post0 := by
  rcases List.eq_nil_or_concat post with rfl | ⟨post0, b, rfl⟩
  · have := List.append_inj' h rfl
    simp at this
    exact Or.inl ⟨rfl, this.1, this.2⟩
  · right
    have h2 : tr ++ [a] = (pre ++ x :: post0) ++ [b] := by simpa using h
    have := List.append_inj' h2 rfl
    simp at this
    exact ⟨post0, by simp [this.2], by simpa using this.1⟩

/-- What a statement of the main goroutine does to the state: nothing once `main` has
returned, otherwise one action is added to the trace. -/
theorem step_main_trace (e : Bool) (s : LoopState) :
    (s.pc = Pc.finished ∧ step (Input.main e) s = s) ∨
      ∃ a, (step (Input.main e) s).trace = s.trace ++ [a] := by
  rcases s with ⟨pc, sv, tr⟩
  cases pc <;> cases sv <;> cases e <;> simp [step, shouldStop]

theorem iterInv_extend (pc pc2 : Pc) (sv sv2 : Bool) (tr : List Action) (a : Action)
    (h : IterInv ⟨pc, sv, tr⟩)
    (hpoll : ∀ b, a = Action.shouldStop b → (b, []) ∈ sincePoll pc2)
    (hext : a.isPoll = false → ∀ b seg, (b, seg) ∈ sincePoll pc →
      (b, seg ++ [a]) ∈ sincePoll pc2) :
    IterInv ⟨pc2, sv2, tr ++ [a]⟩ := by
  intro pre seg b htr hseg
  simp only at htr
  rcases snoc_eq_split _ _ _ _ _ htr with ⟨rfl, _, ha⟩ | ⟨seg0, rfl, htr0⟩
  · exact hpoll b ha
  · have ha : a.isPoll = false := hseg a (by simp)
    exact hext ha b seg0 (h pre seg0 b htr0 (fun x hx => hseg x (by simp [hx])))

theorem iterInv_step (i : Input) (s : LoopState) (h : IterInv s) : IterInv (step i s) := by
  cases i with
  | signal => exact h
  | main e =>
    rcases s with ⟨pc, sv, tr⟩
    cases pc <;> cases sv <;> cases e <;> simp only [step, shouldStop] <;>
      first
      | exact h
      | (refine iterInv_extend _ _ _ _ _ _ h ?_ ?_
         · intro b hb
           simp [sincePoll] at hb ⊢
           try (subst hb; rfl)
         · intro ha b seg hmem
           first
           | (simp [Action.isPoll] at ha; done)
           | (simp [sincePoll, iterationErr, iterationOk] at hmem
              first
              | (rcases hmem with ⟨hb, hs⟩ | ⟨hb, hs⟩ <;> subst hb hs <;>
                  simp [sincePoll, iterationErr, iterationOk])
              | (obtain ⟨hb, hs⟩ := hmem
                 subst hb hs
                 simp [sincePoll, iterationErr, iterationOk])))

theorem iterInv_init : IterInv loopInit := by
  intro pre seg b h
  simp [loopInit] at h

theorem iterInv_exec (ins : List Input) : IterInv (exec ins loopInit) :=
  exec_induct IterInv iterInv_step ins loopInit iterInv_init

theorem adjInv_extend (pc pc2 : Pc) (sv sv2 : Bool) (tr : List Action) (a : Action)
    (h : AdjInv ⟨pc, sv, tr⟩) (hlast : some a ∈ lastAt pc2)
    (hprev : ∀ o, o ∈ lastAt pc → precedes o a = true) :
    AdjInv ⟨pc2, sv2, tr ++ [a]⟩ := by
  refine ⟨by simpa using hlast, ?_⟩
  intro pre post x htr
  simp only at htr
  rcases snoc_eq_split _ _ _ _ _ htr with ⟨_, hpre, ha⟩ | ⟨post0, _, htr0⟩
  · subst hpre ha
    exact hprev _ h.1
  · exact h.2 pre post0 x htr0

theorem adjInv_step (i : Input) (s : LoopState) (h : AdjInv s) : AdjInv (step i s) := by
  cases i with
  | signal => exact h
  | main e =>
    rcases s with ⟨pc, sv, tr⟩
    cases pc <;> cases sv <;> cases e <;> simp only [step, shouldStop] <;>
      first
      | exact h
      | (refine adjInv_extend _ _ _ _ _ _ h ?_ ?_
         · simp [lastAt]
         · intro o ho
           simp [lastAt] at ho
           first
           | (rcases ho with ho | ho <;> subst ho <;> rfl)
           | (subst ho; rfl))

theorem adjInv_init : AdjInv loopInit := by
  refine ⟨by simp [loopInit, lastAt], ?_⟩
  intro pre post x h
  simp [loopInit] at h

theorem adjInv_exec (ins : List Input) : AdjInv (exec ins loopInit) :=
  exec_induct AdjInv adjInv_step ins loopInit adjInv_init

theorem waitInv_extend (pc pc2 : Pc) (sv sv2 : Bool) (tr : List Action) (a : Action)
    (h : WaitInv ⟨pc, sv, tr⟩)
    (h1 : a.isConnect = true → waitsAt pc = [Action.wait 100] ∧ waitsAt pc2 = [])
    (h2 : a.isConnect = false → waitsAt pc ++ [a].filter Action.isWait = waitsAt pc2) :
    WaitInv ⟨pc2, sv2, tr ++ [a]⟩ := by
  constructor
  · intro pre mid e htr hmid
    simp only at htr
    rcases snoc_eq_split _ _ _ _ _ htr with ⟨hm, _, ha⟩ | ⟨mid0, hm, htr0⟩
    · subst hm ha
      simpa using (h1 rfl).2.symm
    · subst hm
      have ha : a.isConnect = false := hmid a (by simp)
      have := h.1 pre mid0 e htr0 (fun x hx => hmid x (by simp [hx]))
      simp only at this
      rw [List.filter_append, this]
      exact h2 ha
  · intro pre mid post e1 e2 htr hmid
    simp only at htr
    have htr2 : tr ++ [a] = (pre ++ Action.connect e1 :: mid) ++ Action.connect e2 :: post := by
      simpa using htr
    rcases snoc_eq_split _ _ _ _ _ htr2 with ⟨_, htr0, ha⟩ | ⟨post0, _, htr0⟩
    · have := h.1 pre mid e1 htr0 hmid
      simp only at this
      rw [this]
      exact (h1 (by rw [ha]; rfl)).1
    · exact h.2 pre mid post0 e1 e2 (by simpa using htr0) hmid

theorem waitInv_step (i : Input) (s : LoopState) (h : WaitInv s) : WaitInv (step i s) := by
  cases i with
  | signal => exact h
  | main e =>
    rcases s with ⟨pc, sv, tr⟩
    cases pc <;> cases sv <;> cases e <;> simp only [step, shouldStop] <;>
      first
      | exact h
      | (refine waitInv_extend _ _ _ _ _ _ h ?_ ?_ <;>
          simp [waitsAt, Action.isConnect, Action.isWait])

theorem waitInv_init : WaitInv loopInit := by
  constructor
  · intro pre mid e h
    simp [loopInit] at h
  · intro pre mid post e1 e2 h
    simp [loopInit] at h

theorem waitInv_exec (ins : List Input) : WaitInv (exec ins loopInit) :=
  exec_induct WaitInv waitInv_step ins loopInit waitInv_init

theorem ending_step (base : List Action) (i : Input) (s : LoopState) (h : Ending base s) :
    Ending base (step i s) := by
  rcases s with ⟨pc, sv, tr⟩
  obtain ⟨hsv, h⟩ := h
  simp only at hsv h
  subst hsv
  rcases h with ⟨rfl, rfl⟩ | ⟨rfl, rfl⟩ | ⟨rfl, rfl⟩ <;> cases i <;>
    simp [Ending, step, shouldStop, stop]

theorem ending_exec (base : List Action) (ins : List Input) (s : LoopState)
    (h : Ending base s) : Ending base (exec ins s) :=
  exec_induct (Ending base) (ending_step base) ins s h

/-- Once the stop flag is set at the poll, the loop only logs "stopped". -/
theorem ending_trace (ins : List Input) (s : LoopState) (hpc : s.pc = Pc.l129)
    (hsv : s.stopValue = true) :
    ∃ ext, (exec ins s).trace = s.trace ++ ext ∧
      ext <+: [Action.shouldStop true, Action.logStopped] := by
  have h := ending_exec s.trace ins s ⟨hsv, Or.inl ⟨hpc, rfl⟩⟩
  rcases h.2 with ⟨_, h⟩ | ⟨_, h⟩ | ⟨_, h⟩
  · exact ⟨[], by simp [h], by simp⟩
  · exact ⟨[Action.shouldStop true], h, ⟨[Action.logStopped], rfl⟩⟩
  · exact ⟨[Action.shouldStop true, Action.logStopped], h, ⟨[], rfl⟩⟩

/-- A statement of the loop body: one action that is not a poll, and control is one
statement nearer to line 129. -/
theorem step_body (e : Bool) (s : LoopState) (hl : s.left = false) (hpc : s.pc ≠ Pc.l129) :
    ∃ a pc2, step (Input.main e) s = ⟨pc2, s.stopValue, s.trace ++ [a]⟩ ∧ a.isPoll = false ∧
      pc2.toPoll + 1 ≤ s.pc.toPoll ∧ pc2 ≠ Pc.l145 ∧ pc2 ≠ Pc.finished ∧
      (pc2 = Pc.l129 → a = Action.wait 100) := by
  rcases s with ⟨pc, sv, tr⟩
  cases pc <;> cases e <;>
    first
    | (exfalso; simp [LoopState.left] at hl hpc; done)
    | exact ⟨_, _, rfl, by simp [Action.isPoll, Pc.toPoll]⟩

theorem mainSteps_signal (ins : List Input) :
    mainSteps (Input.signal :: ins) = mainSteps ins := by
  simp [mainSteps]

theorem mainSteps_main (e : Bool) (ins : List Input) :
    mainSteps (Input.main e :: ins) = mainSteps ins + 1 := by
  simp [mainSteps]

/-- Under every schedule that gives the main goroutine enough steps, control comes back
to the poll of line 129 without leaving the loop, and the iteration in progress is run
to its end. -/
theorem to_poll : ∀ (ins : List Input) (s : LoopState), s.left = false →
    s.pc.toPoll ≤ mainSteps ins →
    ∃ ins1 ins2 body, ins = ins1 ++ ins2 ∧ (exec ins1 s).pc = Pc.l129 ∧
      (exec ins1 s).trace = s.trace ++ body ∧ (∀ a ∈ body, a.isPoll = false) ∧
      (s.pc = Pc.l129 → body = []) ∧
      (s.pc ≠ Pc.l129 → body.getLast? = some (Action.wait 100)) ∧
      (∀ ins0, ins0 <+: ins1 → (exec ins0 s).left = false) ∧
      (s.stopValue = true → (exec ins1 s).stopValue = true) := by
  intro ins
  induction ins with
  | nil =>
    intro s hl hn
    have hpc : s.pc = Pc.l129 := by
      rcases s with ⟨pc, sv, tr⟩
      cases pc <;> simp [LoopState.left, Pc.toPoll, mainSteps] at hl hn ⊢
    refine ⟨[], [], [], rfl, hpc, by simp [exec_nil], by simp, fun _ => rfl,
      fun h => absurd hpc h, ?_, fun h => h⟩
    intro ins0 h0
    have : ins0 = [] := by simpa using h0
    subst this
    exact hl
  | cons i ins ih =>
    intro s hl hn
    by_cases hpc : s.pc = Pc.l129
    · refine ⟨[], i :: ins, [], rfl, hpc, by simp [exec_nil], by simp, fun _ => rfl,
        fun h => absurd hpc h, ?_, fun h => h⟩
      intro ins0 h0
      have : ins0 = [] := by simpa using h0
      subst this
      exact hl
    · cases i with
      | signal =>
        have hl2 : (step Input.signal s).left = false := hl
        rw [mainSteps_signal] at hn
        obtain ⟨ins1, ins2, body, hins, h1, h2, h3, h4, h5, h6, h7⟩ :=
          ih (step Input.signal s) hl2 hn
        refine ⟨Input.signal :: ins1, ins2, body, by simp [hins], h1, h2, h3,
          fun h => absurd h hpc, fun _ => h5 hpc, ?_, fun _ => h7 rfl⟩
        intro ins0 h0
        rcases ins0 with _ | ⟨j, ins0⟩
        · exact hl
        · obtain ⟨hj, hp0⟩ := List.cons_prefix_cons.mp h0
          subst hj
          exact h6 ins0 hp0
      | main e =>
        obtain ⟨a, pc2, hstep, ha, hlt, hp1, hp2, hwait⟩ := step_body e s hl hpc
        have hl2 : (step (Input.main e) s).left = false := by
          rw [hstep]
          simp [LoopState.left, hp1, hp2]
        rw [mainSteps_main] at hn
        have hn2 : (step (Input.main e) s).pc.toPoll ≤ mainSteps ins := by
          rw [hstep]
          simp only
          omega
        obtain ⟨ins1, ins2, body, hins, h1, h2, h3, h4, h5, h6, h7⟩ :=
          ih (step (Input.main e) s) hl2 hn2
        refine ⟨Input.main e :: ins1, ins2, a :: body, by simp [hins], h1, ?_, ?_,
          fun h => absurd h hpc, ?_, ?_, ?_⟩
        · rw [exec_cons, h2, hstep]
          simp
        · intro x hx
          rcases List.mem_cons.mp hx with rfl | hx
          · exact ha
          · exact h3 x hx
        · intro _
          by_cases hp : pc2 = Pc.l129
          · have hb : body = [] := h4 (by rw [hstep]; exact hp)
            rw [hb, hwait hp]
            rfl
          · have hb := h5 (by rw [hstep]; exact hp)
            cases body with
            | nil => simp at hb
            | cons b body => simpa using hb
        · intro ins0 h0
          rcases ins0 with _ | ⟨j, ins0⟩
          · exact hl
          · obtain ⟨hj, hp0⟩ := List.cons_prefix_cons.mp h0
            subst hj
            exact h6 ins0 hp0
        · intro hsv
          refine h7 ?_
          rw [hstep]
          exact hsv

theorem step_poll (e : Bool) (s : LoopState) (a : Action)
    (h : (step (Input.main e) s).trace = s.trace ++ [a]) (ha : a.isPoll = true) :
    s.pc = Pc.l129 := by
  rcases s with ⟨pc, sv, tr⟩
  cases pc <;> cases e <;> simp [step] at h ⊢ <;> subst h <;> simp [Action.isPoll] at ha

theorem wholeInv_step (i : Input) (s : LoopState) (h : IterInv s ∧ WholeInv s) :
    IterInv (step i s) ∧ WholeInv (step i s) := by
  refine ⟨iterInv_step i s h.1, ?_⟩
  cases i with
  | signal => exact h.2
  | main e =>
    rcases step_main_trace e s with ⟨_, hs⟩ | ⟨a, ha⟩
    · rw [hs]
      exact h.2
    · intro pre seg post b b2 htr hseg
      rw [ha] at htr
      have htr2 : s.trace ++ [a]
          = (pre ++ Action.shouldStop b :: seg) ++ Action.shouldStop b2 :: post := by
        simpa using htr
      rcases snoc_eq_split _ _ _ _ _ htr2 with ⟨_, htr0, hab⟩ | ⟨post0, _, htr0⟩
      · have hpc := step_poll e s a ha (by rw [hab]; rfl)
        have := h.1 pre seg b htr0 hseg
        rw [hpc] at this
        simp [sincePoll] at this
        rcases this with ⟨hb, hs⟩ | ⟨hb, hs⟩
        · exact ⟨hb, Or.inl hs⟩
        · exact ⟨hb, Or.inr hs⟩
      · exact h.2 pre seg post0 b b2 (by simpa using htr0) hseg

theorem wholeInv_exec (ins : List Input) : WholeInv (exec ins loopInit) := by
  refine (exec_induct (fun s => IterInv s ∧ WholeInv s) wholeInv_step ins loopInit
    ⟨iterInv_init, ?_⟩).2
  intro pre seg post b b2 h
  simp [loopInit] at h

theorem noStop_step (e : Bool) (s : LoopState) (h : NoStop s) :
    NoStop (step (Input.main e) s) := by
  rcases s with ⟨pc, sv, tr⟩
  obtain ⟨h1, h2⟩ := h
  simp only at h1 h2
  subst h1
  cases pc <;> cases e <;> simp [NoStop, step, shouldStop, h2]

theorem noStop_exec : ∀ (ins : List Input) (s : LoopState), Input.signal ∉ ins → NoStop s →
    NoStop (exec ins s) := by
  intro ins
  induction ins with
  | nil => intro s _ h; exact h
  | cons i ins ih =>
    intro s hi h
    cases i with
    | signal => simp at hi
    | main e =>
      exact ih _ (fun hm => hi (List.mem_cons_of_mem _ hm)) (noStop_step e s h)

theorem selectSink_some (s : Text) : ∃ sink, selectSink s = some sink := by
  unfold selectSink
  by_cases h : regexStatsd.MatchString s = true
  · simp only [h, if_true]
    unfold Regex.MatchString at h
    obtain ⟨m, hm⟩ := Option.isSome_iff_exists.mp h
    exact ⟨_, by rw [hm]; rfl⟩
  · simp [h]

theorem selectSink_noop_iff (s : Text) :
    selectSink s = some Sink.NoopClient ↔ regexStatsd.MatchString s = false := by
  unfold selectSink
  by_cases h : regexStatsd.MatchString s = true
  · simp only [h, if_true]
    unfold Regex.MatchString at h
    obtain ⟨m, hm⟩ := Option.isSome_iff_exists.mp h
    rw [hm]
    simp
  · simp [h]

theorem parseAsterisk_some (s : Text) (h : regexAsterisk.MatchString s = true) :
    ∃ a, parseAsterisk s = some a := by
  unfold Regex.MatchString at h
  obtain ⟨m, hm⟩ := Option.isSome_iff_exists.mp h
  exact ⟨_, by unfold parseAsterisk; rw [hm]; rfl⟩

/-- The part of `main` before the loop, when the socket is created. -/
theorem mainSetup_ok (statsdInfo asteriskInfo : Text) :
    ∃ tr0 sink, selectSink statsdInfo = some sink ∧
      (∀ a ∈ tr0, a = Action.logStatsdDisabled) ∧
      ((regexAsterisk.MatchString asteriskInfo = false ∧
          mainSetup statsdInfo asteriskInfo false
            = (tr0 ++ [Action.newSink sink, Action.createSocket false,
                Action.logParseError asteriskInfo], SetupEnd.returned)) ∨
        (∃ a, parseAsterisk asteriskInfo = some a ∧
          mainSetup statsdInfo asteriskInfo false
            = (tr0 ++ [Action.newSink sink, Action.createSocket false,
                Action.amiNew a.asteriskAddress a.asteriskUsername a.asteriskPassword,
                Action.registerHandler "Newchannel", Action.registerHandler "Newstate",
                Action.registerHandler "SoftHangupRequest", Action.registerHandler "Hangup",
                Action.startSignalGoroutine], SetupEnd.enterLoop))) := by
  obtain ⟨sink, hsink⟩ := selectSink_some statsdInfo
  refine ⟨if regexStatsd.MatchString statsdInfo then [] else [Action.logStatsdDisabled],
    sink, hsink, ?_, ?_⟩
  · intro a ha
    split at ha <;> simp at ha
    exact ha
  · by_cases hm : regexAsterisk.MatchString asteriskInfo = true
    · right
      obtain ⟨a, ha⟩ := parseAsterisk_some asteriskInfo hm
      refine ⟨a, ha, ?_⟩
      simp [mainSetup, hsink, hm, ha]
    · left
      have hm2 : regexAsterisk.MatchString asteriskInfo = false := by simpa using hm
      refine ⟨hm2, ?_⟩
      simp [mainSetup, hsink, hm2]

theorem step_after_stop (i : Input) (s : LoopState) (h : s.stopValue = true) :
    (step i s).stopValue = true ∧
      ∃ e1, (step i s).trace = s.trace ++ e1 ∧ Action.shouldStop false ∉ e1 := by
  rcases s with ⟨pc, sv, tr⟩
  simp only at h
  subst h
  cases i with
  | signal => exact ⟨rfl, [], by simp [step], by simp⟩
  | main e =>
    cases pc <;> cases e <;> simp [step, shouldStop]

/-- After `stop()` the flag stays set and no later poll returns `false`. -/
theorem after_stop : ∀ (ins : List Input) (s : LoopState), s.stopValue = true →
    (exec ins s).stopValue = true ∧
      ∃ ext, (exec ins s).trace = s.trace ++ ext ∧ Action.shouldStop false ∉ ext := by
  intro ins
  induction ins with
  | nil => intro s h; exact ⟨h, [], by simp [exec_nil], by simp⟩
  | cons i ins ih =>
    intro s h
    obtain ⟨h1, e1, he1, hn1⟩ := step_after_stop i s h
    obtain ⟨h2, e2, he2, hn2⟩ := ih (step i s) h1
    refine ⟨h2, e1 ++ e2, ?_, ?_⟩
    · rw [exec_cons, he2, he1, List.append_assoc]
    · simp [hn1, hn2]

theorem mainSetup_sink (statsdInfo asteriskInfo : Text) (socketErr : Bool) :
    ∃ sink, selectSink statsdInfo = some sink ∧
      ∀ k, Action.newSink k ∈ (mainSetup statsdInfo asteriskInfo socketErr).1 ↔ k = sink := by
  obtain ⟨sink, hs⟩ := selectSink_some statsdInfo
  refine ⟨sink, hs, ?_⟩
  intro k
  simp only [mainSetup, hs]
  cases socketErr <;> cases regexStatsd.MatchString statsdInfo <;>
    cases regexAsterisk.MatchString asteriskInfo <;>
    cases parseAsterisk asteriskInfo <;> simp

/-! ## The matcher on concrete values -/

/-- The value `ab/x:y` of `-statsd`: the colon group does not take part, so the host is
`ab:` and the prefix `x:y`. -/
theorem selectSink_slash_before_colon :
    selectSink "ab/x:y".toList = some (Sink.StatsdClient "ab:".toList "x:y".toList) := by
  decide

/-- The value `u:p:q@r@t` of `-asterisk`: the user ends at the first colon and the
password at the first at sign after it. -/
theorem parseAsterisk_first_colon_first_at :
    parseAsterisk "u:p:q@r@t".toList = some ⟨"u".toList, "p:q".toList, "r@t".toList⟩ := by
  decide

/-- A value with a line feed at the end matches neither pattern. -/
theorem matchString_line_feed :
    regexStatsd.MatchString "host:1\n".toList = false ∧
      regexAsterisk.MatchString "u:p@h\n".toList = false := by
  decide

/-! ## The claims -/

/-- C1: the reconnect loop is left, and "stopped" logged, only by a poll of line 129 at
which `shouldStop()` returns `true`: a step that leaves the loop is that poll; in every
execution each "stopped" in the trace comes right after a poll that returned `true`;
neither a Connect error nor the return of Run leaves the loop; and under every schedule
that gives the main goroutine enough steps, control comes back to the poll without the
loop having been left. -/
theorem loop_left_only_at_poll_true :
    (∀ (i : Input) (s : LoopState), s.left = false → (step i s).left = true →
      s.pc = Pc.l129 ∧ s.stopValue = true ∧
        step i s = ⟨Pc.l145, true, s.trace ++ [Action.shouldStop true]⟩) ∧
    (∀ (ins : List Input) (pre post : List Action),
      (exec ins loopInit).trace = pre ++ Action.logStopped :: post →
      ∃ pre0, pre = pre0 ++ [Action.shouldStop true]) ∧
    (∀ (s : LoopState), s.pc = Pc.l132 →
      step (Input.main true) s = ⟨Pc.l133, s.stopValue, s.trace ++ [Action.connect true]⟩) ∧
    (∀ (s : LoopState) (e : Bool), s.pc = Pc.l138r →
      step (Input.main e) s = ⟨Pc.l139, s.stopValue, s.trace ++ [Action.runReturn]⟩) ∧
    (∀ (ins : List Input) (s : LoopState), s.left = false → s.pc.toPoll ≤ mainSteps ins →
      ∃ ins1 ins2, ins = ins1 ++ ins2 ∧ (exec ins1 s).pc = Pc.l129 ∧
        ∀ ins0, ins0 <+: ins1 → (exec ins0 s).left = false) := by
  refine ⟨?_, ?_, ?_, ?_, ?_⟩
  · intro i s hl hl2
    rcases s with ⟨pc, sv, tr⟩
    cases i with
    | signal => simp [step, LoopState.left] at hl hl2; simp [hl] at hl2
    | main e =>
      cases pc <;> cases sv <;> cases e <;>
        simp [step, shouldStop, LoopState.left] at hl hl2 ⊢
  · intro ins pre post h
    have := (adjInv_exec ins).2 pre post _ h
    simp [precedes] at this
    exact List.getLast?_eq_some_iff.mp this
  · intro s h
    rcases s with ⟨pc, sv, tr⟩
    simp only at h
    subst h
    rfl
  · intro s e h
    rcases s with ⟨pc, sv, tr⟩
    simp only at h
    subst h
    rfl
  · intro ins s hl hn
    obtain ⟨ins1, ins2, _, h1, h2, _, _, _, _, h6, _⟩ := to_poll ins s hl hn
    exact ⟨ins1, ins2, h1, h2, h6⟩

/-- Witness of C1: with the stop flag set, the poll of line 129 leaves the loop. -/
theorem loop_left_only_at_poll_true_witness :
    (⟨Pc.l129, true, []⟩ : LoopState).left = false ∧
      (step (Input.main false) ⟨Pc.l129, true, []⟩).left = true ∧
      step (Input.main false) ⟨Pc.l129, true, []⟩
        = ⟨Pc.l145, true, [Action.shouldStop true]⟩ :=
  ⟨by decide, by decide,
    (loop_left_only_at_poll_true.1 (Input.main false) ⟨Pc.l129, true, []⟩
      (by decide) (by decide)).2.2⟩

/-- C2: in every trace of the loop the waits between two consecutive attempts to connect
are exactly one wait of 100 ms, whatever the outcome of the earlier attempt; after a
failed Connect the error is logged and after the wait of 100 ms control is at the poll;
there, if stop was not requested, Connect is attempted again, and if stop was requested
(a signal sets the flag at any point) the loop is left and nothing but the poll and
"stopped" is added to the trace, so no further Connect. -/
theorem one_wait_of_100ms_between_connects :
    (∀ (ins : List Input) (pre mid post : List Action) (e1 e2 : Bool),
      (exec ins loopInit).trace
          = pre ++ Action.connect e1 :: (mid ++ Action.connect e2 :: post) →
      (∀ a ∈ mid, a.isConnect = false) → mid.filter Action.isWait = [Action.wait 100]) ∧
    (∀ (s : LoopState) (e1 e2 : Bool), s.pc = Pc.l133 →
      exec [Input.main e1, Input.main e2] s
        = ⟨Pc.l129, s.stopValue, s.trace ++ [Action.logConnectError, Action.wait 100]⟩) ∧
    (∀ (s : LoopState) (e1 e2 e3 : Bool), s.pc = Pc.l129 → s.stopValue = false →
      exec [Input.main e1, Input.main e2, Input.main e3] s
        = ⟨if e3 then Pc.l133 else Pc.l135, false,
            s.trace ++ [Action.shouldStop false, Action.stopKeepAlive, Action.connect e3]⟩) ∧
    (∀ (s : LoopState), step Input.signal s = ⟨s.pc, true, s.trace⟩) ∧
    (∀ (s : LoopState) (e : Bool), s.pc = Pc.l129 → s.stopValue = true →
      (step (Input.main e) s).left = true) ∧
    (∀ (ins : List Input) (s : LoopState), s.pc = Pc.l129 → s.stopValue = true →
      ∃ ext, (exec ins s).trace = s.trace ++ ext ∧
        ext <+: [Action.shouldStop true, Action.logStopped]) := by
  refine ⟨?_, ?_, ?_, ?_, ?_, ?_⟩
  · intro ins pre mid post e1 e2 h hmid
    exact (waitInv_exec ins).2 pre mid post e1 e2 h hmid
  · intro s e1 e2 h
    rcases s with ⟨pc, sv, tr⟩
    simp only at h
    subst h
    simp [exec, step]
  · intro s e1 e2 e3 h hsv
    rcases s with ⟨pc, sv, tr⟩
    simp only at h hsv
    subst h hsv
    cases e3 <;> simp [exec, step, shouldStop]
  · intro s
    rfl
  · intro s e h hsv
    rcases s with ⟨pc, sv, tr⟩
    simp only at h hsv
    subst h hsv
    rfl
  · intro ins s h hsv
    exact ending_trace ins s h hsv

/-- Witness of C2: a failed attempt, the wait, and a second attempt. -/
theorem one_wait_of_100ms_between_connects_witness :
    (exec (List.replicate 8 (Input.main true)) loopInit).trace
        = [Action.shouldStop false, Action.stopKeepAlive] ++ Action.connect true ::
          ([Action.logConnectError, Action.wait 100, Action.shouldStop false,
            Action.stopKeepAlive] ++ Action.connect true :: []) ∧
      [Action.logConnectError, Action.wait 100, Action.shouldStop false,
        Action.stopKeepAlive].filter Action.isWait = [Action.wait 100] :=
  ⟨rfl, one_wait_of_100ms_between_connects.1 (List.replicate 8 (Input.main true))
    [Action.shouldStop false, Action.stopKeepAlive]
    [Action.logConnectError, Action.wait 100, Action.shouldStop false, Action.stopKeepAlive]
    [] true true rfl (by decide)⟩

/-- C3: in every trace of the loop, the actions after a poll that returned `false` and up
to the next poll are a whole iteration, either `stopKeepAlive, connect err, log, wait` or
`stopKeepAlive, connect ok, log, keepAlive 1000 ms, Run called, Run returned, log,
stopKeepAlive, wait`, and those of the iteration in progress are a prefix of one of the
two; so an iteration whose Connect failed has neither KeepAlive nor Run, and one whose
Connect succeeded follows the second list.  Every Connect comes right after a
StopKeepAlive, and every KeepAlive has the interval of 1000 ms. -/
theorem iteration_keepalive_discipline :
    (∀ (ins : List Input) (pre seg : List Action),
      (exec ins loopInit).trace = pre ++ Action.shouldStop false :: seg →
      (∀ a ∈ seg, a.isPoll = false) → seg <+: iterationErr ∨ seg <+: iterationOk) ∧
    (∀ (ins : List Input) (pre seg post : List Action) (b : Bool),
      (exec ins loopInit).trace
          = pre ++ Action.shouldStop false :: (seg ++ Action.shouldStop b :: post) →
      (∀ a ∈ seg, a.isPoll = false) → seg = iterationErr ∨ seg = iterationOk) ∧
    (∀ (ins : List Input) (pre seg : List Action),
      (exec ins loopInit).trace = pre ++ Action.shouldStop false :: seg →
      (∀ a ∈ seg, a.isPoll = false) → Action.connect true ∈ seg →
      (∀ ms, Action.keepAlive ms ∉ seg) ∧ Action.runCall ∉ seg ∧ Action.runReturn ∉ seg) ∧
    (∀ (ins : List Input) (pre seg : List Action),
      (exec ins loopInit).trace = pre ++ Action.shouldStop false :: seg →
      (∀ a ∈ seg, a.isPoll = false) → Action.connect false ∈ seg → seg <+: iterationOk) ∧
    (∀ (ins : List Input) (pre post : List Action) (e : Bool),
      (exec ins loopInit).trace = pre ++ Action.connect e :: post →
      ∃ pre0, pre = pre0 ++ [Action.stopKeepAlive]) ∧
    (∀ (ins : List Input) (ms : Nat),
      Action.keepAlive ms ∈ (exec ins loopInit).trace → ms = 1000) := by
  have hseg0 : ∀ (ins : List Input) (pre seg : List Action),
      (exec ins loopInit).trace = pre ++ Action.shouldStop false :: seg →
      (∀ a ∈ seg, a.isPoll = false) → seg <+: iterationErr ∨ seg <+: iterationOk := by
    intro ins pre seg h hseg
    have hm := iterInv_exec ins pre seg false h hseg
    generalize (exec ins loopInit).pc = pc at hm
    cases pc <;> simp [sincePoll] at hm
    · rcases hm with hm | hm
      · exact Or.inl (by rw [hm])
      · exact Or.inr (by rw [hm])
    all_goals first
      | (rcases hm with hm | hm
         · exact Or.inl (by rw [hm]; exact List.take_prefix _ _)
         · exact Or.inr (by rw [hm]; exact List.take_prefix _ _))
      | exact Or.inr (by rw [hm]; exact List.nil_prefix)
      | exact Or.inl (by rw [hm]; exact List.take_prefix _ _)
      | exact Or.inr (by rw [hm]; exact List.take_prefix _ _)
  refine ⟨hseg0, ?_, ?_, ?_, ?_, ?_⟩
  · intro ins pre seg post b h hseg
    exact (wholeInv_exec ins pre seg post false b h hseg).2
  · intro ins pre seg h hseg hc
    rcases hseg0 ins pre seg h hseg with hp | hp
    · have hsub := hp.subset
      refine ⟨fun ms hk => ?_, fun hk => ?_, fun hk => ?_⟩ <;>
        · have := hsub hk
          simp [iterationErr] at this
    · have := hp.subset hc
      simp [iterationOk] at this
  · intro ins pre seg h hseg hc
    rcases hseg0 ins pre seg h hseg with hp | hp
    · have := hp.subset hc
      simp [iterationErr] at this
    · exact hp
  · intro ins pre post e h
    have := (adjInv_exec ins).2 pre post _ h
    simp [precedes] at this
    exact List.getLast?_eq_some_iff.mp this
  · intro ins ms hk
    obtain ⟨pre, post, h⟩ := List.append_of_mem hk
    have := (adjInv_exec ins).2 pre post _ h
    simp [precedes] at this
    exact this.2

/-- Witness of C3: an iteration whose Connect succeeds, up to the next poll. -/
theorem iteration_keepalive_discipline_witness :
    (exec (List.replicate 11 (Input.main false)) loopInit).trace
        = [] ++ Action.shouldStop false :: (iterationOk ++ Action.shouldStop false :: []) ∧
      (iterationOk = iterationErr ∨ iterationOk = iterationOk) :=
  ⟨rfl, iteration_keepalive_discipline.2.1 (List.replicate 11 (Input.main false)) []
    iterationOk [] false rfl (by decide)⟩

/-- C4: `shouldStop()` returns `false` as long as `stop()` has not been called; once the
flag is set it stays set and no later poll returns `false`; a poll returns the current
value of the flag.  When `stop()` is called while an iteration is in progress, under
every schedule that gives the main goroutine enough steps the iteration is run to its
end, the wait of 100 ms being its last action, with no poll in between; the next poll
then leaves the loop, and after the iteration nothing but that poll and "stopped" is
added to the trace, so no further Connect. -/
theorem stop_takes_effect_at_next_poll :
    (∀ (ins : List Input), Input.signal ∉ ins →
      (exec ins loopInit).stopValue = false ∧
        Action.shouldStop true ∉ (exec ins loopInit).trace) ∧
    (∀ (s : LoopState), step Input.signal s = ⟨s.pc, true, s.trace⟩) ∧
    (∀ (ins : List Input) (s : LoopState), s.stopValue = true →
      (exec ins s).stopValue = true ∧
        ∃ ext, (exec ins s).trace = s.trace ++ ext ∧ Action.shouldStop false ∉ ext) ∧
    (∀ (s : LoopState) (e : Bool), s.pc = Pc.l129 →
      (step (Input.main e) s).trace = s.trace ++ [Action.shouldStop s.stopValue]) ∧
    (∀ (ins : List Input) (s : LoopState), s.left = false → s.pc ≠ Pc.l129 →
      s.pc.toPoll ≤ mainSteps ins →
      ∃ ins1 ins2 body, ins = ins1 ++ ins2 ∧
        (exec ins1 (step Input.signal s)).pc = Pc.l129 ∧
        (exec ins1 (step Input.signal s)).stopValue = true ∧
        (exec ins1 (step Input.signal s)).trace = s.trace ++ body ∧
        body.getLast? = some (Action.wait 100) ∧ (∀ a ∈ body, a.isPoll = false) ∧
        ∃ ext, (exec ins (step Input.signal s)).trace = s.trace ++ body ++ ext ∧
          ext <+: [Action.shouldStop true, Action.logStopped]) ∧
    (∀ (s : LoopState) (e : Bool), s.pc = Pc.l129 → s.stopValue = true →
      step (Input.main e) s = ⟨Pc.l145, true, s.trace ++ [Action.shouldStop true]⟩) := by
  refine ⟨?_, fun _ => rfl, after_stop, ?_, ?_, ?_⟩
  · intro ins hins
    exact noStop_exec ins loopInit hins ⟨rfl, by simp [loopInit]⟩
  · intro s e h
    rcases s with ⟨pc, sv, tr⟩
    simp only at h
    subst h
    cases sv <;> simp [step, shouldStop]
  · intro ins s hl hpc hn
    obtain ⟨ins1, ins2, body, h1, h2, h3, h4, _, h5, _, h7⟩ :=
      to_poll ins (step Input.signal s) hl hn
    have hsv : (exec ins1 (step Input.signal s)).stopValue = true := h7 rfl
    obtain ⟨ext, he, hp⟩ := ending_trace ins2 _ h2 hsv
    refine ⟨ins1, ins2, body, h1, h2, hsv, h3, h5 hpc, h4, ext, ?_, hp⟩
    rw [h1, exec_append, he, h3]
    rfl
  · intro s e h hsv
    rcases s with ⟨pc, sv, tr⟩
    simp only at h hsv
    subst h hsv
    rfl

/-- Witness of C4: `stop()` is called while `Run` is in progress; `Run` returns, the
iteration is finished and the loop is left at the next poll. -/
theorem stop_takes_effect_at_next_poll_witness :
    (⟨Pc.l138r, false, []⟩ : LoopState).left = false ∧
      (⟨Pc.l138r, false, []⟩ : LoopState).pc ≠ Pc.l129 ∧
      (∃ ins1 ins2 body, List.replicate 6 (Input.main false) = ins1 ++ ins2 ∧
        (exec ins1 (step Input.signal ⟨Pc.l138r, false, []⟩)).pc = Pc.l129 ∧
        (exec ins1 (step Input.signal ⟨Pc.l138r, false, []⟩)).stopValue = true ∧
        (exec ins1 (step Input.signal ⟨Pc.l138r, false, []⟩)).trace = [] ++ body ∧
        body.getLast? = some (Action.wait 100) ∧ (∀ a ∈ body, a.isPoll = false) ∧
        ∃ ext, (exec (List.replicate 6 (Input.main false))
            (step Input.signal ⟨Pc.l138r, false, []⟩)).trace = [] ++ body ++ ext ∧
          ext <+: [Action.shouldStop true, Action.logStopped]) :=
  ⟨by decide, by decide,
    stop_takes_effect_at_next_poll.2.2.2.2.1 (List.replicate 6 (Input.main false))
      ⟨Pc.l138r, false, []⟩ (by decide) (by decide) (by decide)⟩

/-- C5: `stop()` is idempotent, on the flag and as a step of the program, and
`shouldStop()` returns the flag and leaves it as it was, also as the poll of line 129. -/
theorem stop_idempotent (stopValue : Bool) (s : LoopState) (e : Bool) :
    stop (stop stopValue) = stop stopValue ∧
      shouldStop stopValue = (stopValue, stopValue) ∧
      step Input.signal (step Input.signal s) = step Input.signal s ∧
      (step (Input.main e) s).stopValue = s.stopValue := by
  refine ⟨rfl, rfl, rfl, ?_⟩
  rcases s with ⟨pc, sv, tr⟩
  cases pc <;> cases sv <;> cases e <;> rfl

/-- C6: for the empty value of `-statsd` (the default) `statsdEnabled` is false and the
no-op client is chosen; for every value the no-op client is chosen exactly if the value
does not match the pattern of line 44, which is exactly if the value is empty or has a
line feed, and it is then the sink that `main` constructs; for every other value the
client of `statsd.NewStatsdClient` is constructed. -/
theorem noop_sink_iff_no_match (statsdInfo : Text) :
    regexStatsd.MatchString [] = false ∧ selectSink [] = some Sink.NoopClient ∧
    (selectSink statsdInfo = some Sink.NoopClient
      ↔ regexStatsd.MatchString statsdInfo = false) ∧
    (regexStatsd.MatchString statsdInfo = false ↔ (statsdInfo = [] ∨ '\n' ∈ statsdInfo)) ∧
    (∀ (asteriskInfo : Text) (socketErr : Bool),
      Action.newSink Sink.NoopClient ∈ (mainSetup statsdInfo asteriskInfo socketErr).1
        ↔ (statsdInfo = [] ∨ '\n' ∈ statsdInfo)) ∧
    (¬ (statsdInfo = [] ∨ '\n' ∈ statsdInfo) →
      ∃ statsdHost statsdPfx,
        selectSink statsdInfo = some (Sink.StatsdClient statsdHost statsdPfx) ∧
        ∀ (asteriskInfo : Text) (socketErr : Bool),
          Action.newSink (Sink.StatsdClient statsdHost statsdPfx)
            ∈ (mainSetup statsdInfo asteriskInfo socketErr).1) := by
  have hiff : ∀ s : Text, regexStatsd.MatchString s = false ↔ (s = [] ∨ '\n' ∈ s) := by
    intro s
    have := regexStatsd_match_iff s
    constructor
    · intro h
      by_contra hc
      simp only [not_or] at hc
      have := this.mpr ⟨hc.1, hc.2⟩
      simp [h] at this
    · intro h
      by_contra hc
      have hm : regexStatsd.MatchString s = true := by simpa using hc
      have := this.mp hm
      rcases h with h | h
      · exact this.1 h
      · exact this.2 h
  have h0 : regexStatsd.MatchString [] = false := (hiff []).mpr (Or.inl rfl)
  refine ⟨h0, (selectSink_noop_iff []).mpr h0, selectSink_noop_iff statsdInfo,
    hiff statsdInfo, ?_, ?_⟩
  · intro asteriskInfo socketErr
    obtain ⟨sink, hs, hk⟩ := mainSetup_sink statsdInfo asteriskInfo socketErr
    rw [hk, ← hiff statsdInfo, ← selectSink_noop_iff, hs]
    simp [eq_comm]
  · intro hne
    have hm : regexStatsd.MatchString statsdInfo = true := by
      by_contra hc
      exact hne ((hiff statsdInfo).mp (by simpa using hc))
    have hfind := hm
    unfold Regex.MatchString at hfind
    obtain ⟨m, hmf⟩ := Option.isSome_iff_exists.mp hfind
    have hsel : selectSink statsdInfo
        = some (Sink.StatsdClient (m.caps 1 ++ [':'] ++ m.caps 3) (m.caps 5)) := by
      unfold selectSink
      simp [hm, hmf]
    refine ⟨_, _, hsel, ?_⟩
    intro asteriskInfo socketErr
    obtain ⟨sink, hs, hk⟩ := mainSetup_sink statsdInfo asteriskInfo socketErr
    rw [hk]
    rw [hsel] at hs
    exact Option.some.inj hs

/-- Witness of C6: the value `localhost:8125` has the real client constructed. -/
theorem noop_sink_iff_no_match_witness :
    ¬ ("localhost:8125".toList = [] ∨ '\n' ∈ "localhost:8125".toList) ∧
      ∃ statsdHost statsdPfx,
        selectSink "localhost:8125".toList = some (Sink.StatsdClient statsdHost statsdPfx) ∧
        ∀ (asteriskInfo : Text) (socketErr : Bool),
          Action.newSink (Sink.StatsdClient statsdHost statsdPfx)
            ∈ (mainSetup "localhost:8125".toList asteriskInfo socketErr).1 :=
  ⟨by decide, (noop_sink_iff_no_match "localhost:8125".toList).2.2.2.2.2 (by decide)⟩

/-- C7: for a user without colon and line feed, a password without at sign and line feed
and an address without line feed, `main` reads from `user:password@address` the user as
`asteriskUsername`, the password as `asteriskPassword` and the address as
`asteriskAddress`, and, when the socket is created, calls `ami.New` with them. -/
theorem asterisk_value_format (user password address : Text)
    (hu : ':' ∉ user) (hun : '\n' ∉ user) (hp : '@' ∉ password) (hpn : '\n' ∉ password)
    (han : '\n' ∉ address) :
    regexAsterisk.MatchString (user ++ [':'] ++ password ++ ['@'] ++ address) = true ∧
    parseAsterisk (user ++ [':'] ++ password ++ ['@'] ++ address)
      = some ⟨user, password, address⟩ ∧
    ∀ statsdInfo : Text, Action.amiNew address user password
      ∈ (mainSetup statsdInfo (user ++ [':'] ++ password ++ ['@'] ++ address) false).1 := by
  have hparse := parseAsterisk_spec user password address hu hun hp hpn han
  have hm : regexAsterisk.MatchString (user ++ [':'] ++ password ++ ['@'] ++ address)
      = true := by
    unfold parseAsterisk at hparse
    unfold Regex.MatchString
    cases hf : regexAsterisk.find (user ++ [':'] ++ password ++ ['@'] ++ address) with
    | none => rw [hf] at hparse; simp at hparse
    | some m => rfl
  refine ⟨hm, hparse, ?_⟩
  intro statsdInfo
  obtain ⟨tr0, sink, _, _, h | ⟨a, ha, h⟩⟩ :=
    mainSetup_ok statsdInfo (user ++ [':'] ++ password ++ ['@'] ++ address)
  · rw [hm] at h
    simp at h
  · rw [hparse] at ha
    have ha2 := Option.some.inj ha
    subst ha2
    rw [h]
    simp

/-- Witness of C7: the value `admin:secret@127.0.0.1:5038`. -/
theorem asterisk_value_format_witness :
    parseAsterisk ("admin".toList ++ [':'] ++ "secret".toList ++ ['@'] ++ "127.0.0.1:5038".toList)
      = some ⟨"admin".toList, "secret".toList, "127.0.0.1:5038".toList⟩ :=
  (asterisk_value_format "admin".toList "secret".toList "127.0.0.1:5038".toList
    (by decide) (by decide) (by decide) (by decide) (by decide)).2.1

/-- C8: for a host that is not empty and has no colon, slash or line feed, a port without
slash and line feed and a prefix without line feed, `main` reads from `host:port/prefix`
the value `host:port` as `statsdHost` and the prefix as `statsdPrefix`, and constructs
the client with them. -/
theorem statsd_value_format (host port pfx : Text) (hne : host ≠ [])
    (hc : ':' ∉ host) (hs : '/' ∉ host) (hn : '\n' ∉ host)
    (ps : '/' ∉ port) (pn : '\n' ∉ port) (xn : '\n' ∉ pfx) :
    selectSink (host ++ [':'] ++ port ++ ['/'] ++ pfx)
      = some (Sink.StatsdClient (host ++ [':'] ++ port) pfx) := by
  cases host with
  | nil => exact absurd rfl hne
  | cons d host =>
    obtain ⟨p, tl, h⟩ := regexStatsd_first d host port pfx hc hs hn ps pn xn
    have hstr : d :: host ++ [':'] ++ port ++ ['/'] ++ pfx
        = (d :: host) ++ ':' :: (port ++ '/' :: pfx) := by simp
    rw [hstr]
    have hf := findFrom_of_head _ _ _ _ _ h
    unfold selectSink Regex.MatchString Regex.find
    rw [hf]
    simp [setCap]

/-- Witness of C8: the value `localhost:8125/asterisk`. -/
theorem statsd_value_format_witness :
    selectSink ("localhost".toList ++ [':'] ++ "8125".toList ++ ['/'] ++ "asterisk".toList)
      = some (Sink.StatsdClient ("localhost".toList ++ [':'] ++ "8125".toList)
          "asterisk".toList) :=
  statsd_value_format "localhost".toList "8125".toList "asterisk".toList
    (by decide) (by decide) (by decide) (by decide) (by decide) (by decide) (by decide)

/-- C9, as written, fails: with the value `x` for `-statsd` and `CreateSocket()`
returning an error, the empty value of `-asterisk` does not match the pattern and yet is
not rejected, since `main` ends with `os.Exit(1)` in line 67 before line 71. -/
theorem socket_error_hides_rejection :
    regexAsterisk.MatchString [] = false ∧ ¬ Rejected ['x'] [] true ∧
      mainSetup ['x'] [] true
        = ([Action.newSink (Sink.StatsdClient ['x', ':'] []), Action.createSocket true,
            Action.logSocketError, Action.exit1], SetupEnd.exited) := by
  have h : mainSetup ['x'] [] true
      = ([Action.newSink (Sink.StatsdClient ['x', ':'] []), Action.createSocket true,
          Action.logSocketError, Action.exit1], SetupEnd.exited) := by decide
  refine ⟨by decide, ?_, h⟩
  intro hr
  have := hr.1
  rw [h] at this
  simp at this

/-- C9, amended: when `CreateSocket()` returns no error, the value of `-asterisk` is
rejected exactly if it does not match the pattern of line 70, which is exactly if it has
a line feed or no colon with an at sign somewhere after it; the empty value is
rejected. -/
theorem rejected_iff_no_match (statsdInfo asteriskInfo : Text) :
    (Rejected statsdInfo asteriskInfo false
      ↔ regexAsterisk.MatchString asteriskInfo = false) ∧
    (regexAsterisk.MatchString asteriskInfo = false
      ↔ ('\n' ∈ asteriskInfo ∨
          ¬ ∃ a b c : Text, asteriskInfo = a ++ ':' :: (b ++ '@' :: c))) ∧
    Rejected statsdInfo [] false := by
  have hrej : ∀ s : Text, Rejected statsdInfo s false ↔ regexAsterisk.MatchString s = false := by
    intro s
    obtain ⟨tr0, sink, _, htr0, ⟨hm, h⟩ | ⟨a, ha, h⟩⟩ := mainSetup_ok statsdInfo s
    · refine ⟨fun _ => hm, fun _ => ⟨by rw [h], by rw [h]; simp, ?_⟩⟩
      intro ins x hx
      simp only [mainRun, h] at hx
      simp only [List.mem_append, List.mem_cons, List.mem_singleton, List.not_mem_nil,
        or_false] at hx
      rcases hx with hx | hx | hx | hx
      · rw [htr0 x hx]; rfl
      · rw [hx]; rfl
      · rw [hx]; rfl
      · rw [hx]; rfl
    · constructor
      · intro hr
        have := hr.1
        rw [h] at this
        simp at this
      · intro hm
        exfalso
        unfold parseAsterisk at ha
        unfold Regex.MatchString at hm
        cases hf : regexAsterisk.find s with
        | none => rw [hf] at ha; simp at ha
        | some m => rw [hf] at hm; simp at hm
  have hiff : ∀ s : Text, regexAsterisk.MatchString s = false
      ↔ ('\n' ∈ s ∨ ¬ ∃ a b c : Text, s = a ++ ':' :: (b ++ '@' :: c)) := by
    intro s
    have := regexAsterisk_match_iff s
    constructor
    · intro h
      by_contra hc
      simp only [not_or, not_not] at hc
      have := this.mpr ⟨hc.1, hc.2⟩
      simp [h] at this
    · intro h
      by_contra hc
      have hm : regexAsterisk.MatchString s = true := by simpa using hc
      have := this.mp hm
      rcases h with h | h
      · exact this.1 h
      · exact h this.2
  refine ⟨hrej asteriskInfo, hiff asteriskInfo, (hrej []).mpr ((hiff []).mpr (Or.inr ?_))⟩
  rintro ⟨a, b, c, h⟩
  simp at h

/-- Witness of C9, amended: a value without colon is rejected when the socket is
created. -/
theorem rejected_iff_no_match_witness :
    regexAsterisk.MatchString "localhost".toList = false ∧
      Rejected [] "localhost".toList false :=
  ⟨by decide, (rejected_iff_no_match [] "localhost".toList).1.mpr (by decide)⟩

end AsteriskStatsd
